import Mathlib

/-
Verification of the hamster-cache eviction core (src/Cache.ts) against its
natural-language specification.

The embedding mirrors `Cache.ts` operation by operation:
- JS numbers used for timestamps/TTLs are naturals extended with Infinity
  (`ENum`); negative values never arise in the verified scenarios.
- The backing ES6 `Map` (insertion-order preserving) is an association list
  with JS `Map` semantics (`mapGet` / `mapSet` / `mapDelete`).
- The `LRUQueue` recency structure is not part of the provided sources
  (only `Cache.ts` imports it), so it is modelled from the specification's
  description of `UsageOrder` (section 4.1); see the `LRUQueue` namespace.
- A thrown JS `TypeError` (e.g. reading `.dispose` of `undefined`) is the
  `JSRes.thrown` outcome, paired with the memory state at throw time (JS
  exceptions do not roll back prior mutations).
- Dispose callbacks are identified by a numeric id; firing a callback
  appends its id to an external `log`, so "fires at most once" becomes
  "`log` has no duplicates".
-/

set_option maxHeartbeats 1000000

namespace HamsterCache

/-- A JS number used for timestamps and TTL values: a natural number of
milliseconds, or `Infinity`. -/
inductive ENum where
  | fin (n : Nat)
  | inf
deriving DecidableEq, Repr

/-- JS `<=` on extended numbers (`Infinity` is the top element). -/
def ENum.le : ENum → ENum → Bool
  | _, .inf => true
  | .inf, .fin _ => false
  | .fin a, .fin b => decide (a ≤ b)

/-- JS `<` on extended numbers. -/
def ENum.lt (a b : ENum) : Bool := !(ENum.le b a)

/-- JS `+` on extended numbers (`Infinity` absorbs). -/
def ENum.add : ENum → ENum → ENum
  | .inf, _ => .inf
  | _, .inf => .inf
  | .fin a, .fin b => .fin (a + b)

/-- The eviction strategy selector (`CacheStrategy` in `Cache.ts`). -/
inductive CacheStrategy where
  | age
  | lru
deriving DecidableEq, Repr

/-- An item in the cache, stored with metadata (`IItem` in `Cache.ts`).
The optional dispose callback is represented by a numeric identity used to
record its firings. -/
structure Item (V : Type) where
  value : V
  expireAfterTimestamp : ENum
  storageTimestamp : Nat
  dispose : Option Nat
deriving DecidableEq, Repr

/-- The frozen construction-time options of a cache (`IOptions` minus the
backing store instance, which lives in `Mem`). `Cache.ts` freezes these, so
they are passed read-only to every operation. -/
structure Config where
  defaultTTL : ENum
  maximalItemCount : ENum
  evictBy : CacheStrategy
deriving DecidableEq, Repr

/-- The mutable part of a cache: the backing `Map` (association list in
insertion order), the `LRUQueue` key sequence (head = least recently used),
and the record of dispose-callback ids fired so far (external world effects,
in firing order). -/
structure Mem (K V : Type) where
  store : List (K × Item V)
  queue : List K
  log : List Nat
deriving DecidableEq, Repr

/-- The per-call options of `set` (`ISetItemOptions`): optional TTL
(defaulting to the config's `defaultTTL`), the storage timestamp (injected
in place of `Date.now()`), and the optional dispose callback id. -/
structure SetOpts where
  ttl : Option ENum
  storageTimestamp : Nat
  dispose : Option Nat
deriving DecidableEq, Repr

/-- Outcome of a JS method call: a returned value, or a thrown exception
(`TypeError`). -/
inductive JSRes (α : Type) where
  | ok (a : α)
  | thrown
deriving DecidableEq, Repr

variable {K V : Type} [DecidableEq K]

/-- ES6 `Map.prototype.get` on the association-list store. -/
def mapGet (k : K) (l : List (K × Item V)) : Option (Item V) :=
  (l.find? (fun p => decide (p.1 = k))).map Prod.snd

/-- ES6 `Map.prototype.set`: replaces the value of an existing entry in
place (keeping its insertion-order position and original key object), or
appends a new entry at the end. -/
def mapSet (k : K) (it : Item V) : List (K × Item V) → List (K × Item V)
  | [] => [(k, it)]
  | p :: rest => if p.1 = k then (p.1, it) :: rest else p :: mapSet k it rest

/-- ES6 `Map.prototype.delete`: removes the entry under the key, if any. -/
def mapDelete (k : K) (l : List (K × Item V)) : List (K × Item V) :=
  l.filter (fun p => decide (p.1 ≠ k))

namespace LRUQueue

/-- Modelled from the spec: the repository's `LRUQueue.ts` (the `UsageOrder`
component) is imported by `Cache.ts` but its source file is missing; the
structure is a recency-ordered sequence of keys, head = least-recently-used
end, back = most-recently-used end. `push(key)` inserts `key` at the
most-recently-used end (spec precondition: the key is not already tracked;
a violating call simply appends here). -/
def push (k : K) (q : List K) : List K := q ++ [k]

/-- Modelled from the spec: `LRUQueue.delete(key)` removes `key` from the
order if present (the key ceases to be tracked, wherever it stands);
no-op if absent. -/
def delete (k : K) (q : List K) : List K := q.filter (fun x => decide (x ≠ k))

/-- Modelled from the spec: `LRUQueue.touch(key)` moves a tracked `key` to
the most-recently-used end; no-op (no error) if untracked. -/
def touch (k : K) (q : List K) : List K :=
  if k ∈ q then delete k q ++ [k] else q

/-- Modelled from the spec: `LRUQueue.shift()` removes and returns the
least-recently-used key, or the sentinel empty result (`none`, JS
`undefined`) if no keys are tracked. -/
def shift (q : List K) : Option K × List K := (q.head?, q.tail)

/-- Modelled from the spec: `LRUQueue.clear()` removes all tracked keys. -/
def clear : List K := ([] : List K)

end LRUQueue

namespace Cache

/-- The private `dispose(key)` helper of `Cache.ts`: looks the item up with
`peekItem` and calls `item.dispose()` if registered. When the key is absent
the source reads `.dispose` of `undefined` and throws a `TypeError`. -/
def dispose (k : K) (m : Mem K V) : JSRes Unit × Mem K V :=
  match mapGet k m.store with
  | none => (.thrown, m)
  | some it =>
    match it.dispose with
    | some d => (.ok (), { m with log := m.log ++ [d] })
    | none => (.ok (), m)

/-- `Cache.delete(key)`: dispose, remove from the recency structure, remove
from the store; returns whether the store held the key. -/
def deleteKey (k : K) (m : Mem K V) : JSRes Bool × Mem K V :=
  match dispose k m with
  | (.thrown, m') => (.thrown, m')
  | (.ok _, m') =>
    let m2 := { m' with queue := LRUQueue.delete k m'.queue }
    (.ok (mapGet k m2.store).isSome, { m2 with store := mapDelete k m2.store })

/-- `Cache.deleteOldestItem` (the `age` eviction step): delete the first key
yielded by the store's insertion-order iteration, if any. -/
def deleteOldestItem (m : Mem K V) : JSRes Unit × Mem K V :=
  match m.store.head? with
  | none => (.ok (), m)
  | some p =>
    match deleteKey p.1 m with
    | (.thrown, m') => (.thrown, m')
    | (.ok _, m') => (.ok (), m')

/-- `Cache.deleteLeastRecentlyUsedItem` (the `lru` eviction step): shift the
least-recently-used key off the queue, dispose it, then remove it from the
queue and the store (the source inlines these steps rather than calling
`delete`). An empty shift result makes the inlined `dispose` throw. -/
def deleteLeastRecentlyUsedItem (m : Mem K V) : JSRes Bool × Mem K V :=
  match LRUQueue.shift m.queue with
  | (none, q') => (.thrown, { m with queue := q' })
  | (some k, q') =>
    let m1 := { m with queue := q' }
    match dispose k m1 with
    | (.thrown, m2) => (.thrown, m2)
    | (.ok _, m2) =>
      let m3 := { m2 with queue := LRUQueue.delete k m2.queue }
      (.ok (mapGet k m3.store).isSome, { m3 with store := mapDelete k m3.store })

/-- One iteration body of the capacity-enforcement loop in `set`, dispatched
on the configured strategy. -/
def evictOne (cfg : Config) (m : Mem K V) : JSRes Unit × Mem K V :=
  match cfg.evictBy with
  | .age => deleteOldestItem m
  | .lru =>
    match deleteLeastRecentlyUsedItem m with
    | (.thrown, m') => (.thrown, m')
    | (.ok _, m') => (.ok (), m')

/-- The `while (cache.size >= maximalItemCount)` capacity-enforcement loop
of `set`, as fuelled recursion. Every non-throwing iteration with a true
guard strictly shrinks the store, so fuel `store.length` reproduces the
JS loop exactly on every state that has a valid configuration. -/
def evictLoop (cfg : Config) : Nat → Mem K V → JSRes Unit × Mem K V
  | 0, m => (.ok (), m)
  | fuel + 1, m =>
    if ENum.le cfg.maximalItemCount (.fin m.store.length) then
      match evictOne cfg m with
      | (.thrown, m') => (.thrown, m')
      | (.ok _, m') => evictLoop cfg fuel m'
    else (.ok (), m)

/-- `Cache.set(key, value, options)`: reject a non-positive TTL, compute the
expiry timestamp, run the capacity-enforcement loop, then push the key to
the most-recently-used end and write the item into the store. -/
def set (cfg : Config) (k : K) (v : V) (opts : SetOpts) (m : Mem K V) :
    JSRes Bool × Mem K V :=
  let ttl := opts.ttl.getD cfg.defaultTTL
  if ENum.le ttl (.fin 0) then (.ok false, m)
  else
    let expireAfterTimestamp :=
      if ENum.lt ttl .inf then ENum.add (.fin opts.storageTimestamp) ttl
      else ENum.inf
    let item : Item V :=
      ⟨v, expireAfterTimestamp, opts.storageTimestamp, opts.dispose⟩
    match evictLoop cfg m.store.length m with
    | (.thrown, m') => (.thrown, m')
    | (.ok _, m') =>
      (.ok true,
        { m' with
          queue := LRUQueue.push k m'.queue
          store := mapSet k item m'.store })

/-- The item record `set` builds before inserting (same computation as the
body of `Cache.set`). -/
def setItem (cfg : Config) (opts : SetOpts) (v : V) : Item V :=
  let ttl := opts.ttl.getD cfg.defaultTTL
  ⟨v,
   if ENum.lt ttl .inf then ENum.add (.fin opts.storageTimestamp) ttl
   else ENum.inf,
   opts.storageTimestamp, opts.dispose⟩

/-- `Cache.peekItem(key)`: a pure store lookup, no recency update, no TTL
evaluation, no side effect. -/
def peekItem (k : K) (m : Mem K V) : Option (Item V) := mapGet k m.store

/-- `Cache.peek(key)`: `peekItem` projected to the value. -/
def peek (k : K) (m : Mem K V) : Option V := (peekItem k m).map Item.value

/-- `Cache.getItem(key, asOf)`: TTL-enforcing read. A present item whose
`expireAfterTimestamp <= asOf` is deleted (disposing it) and `undefined` is
returned; otherwise the key is touched in the recency structure and the
item (or `undefined`) is returned. -/
def getItem (k : K) (asOf : Nat) (m : Mem K V) : Option (Item V) × Mem K V :=
  match mapGet k m.store with
  | some it =>
    if ENum.le it.expireAfterTimestamp (.fin asOf) then
      (none, (deleteKey k m).2)
    else
      (some it, { m with queue := LRUQueue.touch k m.queue })
  | none => (none, { m with queue := LRUQueue.touch k m.queue })

/-- `Cache.get(key, asOf)`: `getItem` projected to the value. -/
def get (k : K) (asOf : Nat) (m : Mem K V) : Option V × Mem K V :=
  let r := getItem k asOf m
  (r.1.map Item.value, r.2)

/-- The body of `Cache.evictExpiredItems`, iterating over the (snapshot of
the) store in insertion order and deleting every entry already expired at
`asOf`. Deleting only the currently visited key is exactly what the JS
`for...of` over the live `Map` does. -/
def sweepList (asOf : Nat) : List (K × Item V) → Mem K V → JSRes Unit × Mem K V
  | [], m => (.ok (), m)
  | p :: rest, m =>
    if ENum.le p.2.expireAfterTimestamp (.fin asOf) then
      match deleteKey p.1 m with
      | (.thrown, m') => (.thrown, m')
      | (.ok _, m') => sweepList asOf rest m'
    else sweepList asOf rest m

/-- `Cache.evictExpiredItems(asOf)`: sweep the whole store. -/
def evictExpiredItems (asOf : Nat) (m : Mem K V) : JSRes Unit × Mem K V :=
  sweepList asOf m.store m

/-- `Cache.has(key)`: presence check against the store only. -/
def hasKey (k : K) (m : Mem K V) : Bool := (mapGet k m.store).isSome

/-- `Cache.size()`: the tracked item count. -/
def size (m : Mem K V) : Nat := m.store.length

/-- `Cache.setTTL(key, ttl, beginningFromTimestamp)`: overwrite the stored
item's `expireAfterTimestamp` with `beginningFromTimestamp + ttl` and
return it. On an untracked key the source assigns a field of `undefined`
and throws a `TypeError` before any mutation. -/
def setTTL (k : K) (ttl : ENum) (beginningFromTimestamp : Nat) (m : Mem K V) :
    JSRes ENum × Mem K V :=
  match mapGet k m.store with
  | none => (.thrown, m)
  | some it =>
    let newExpire := ENum.add (.fin beginningFromTimestamp) ttl
    (.ok newExpire,
      { m with store := mapSet k { it with expireAfterTimestamp := newExpire } m.store })

/-- `Cache.clear()`: empties both structures; fires no dispose callback. -/
def clear (m : Mem K V) : Mem K V :=
  { m with store := [], queue := LRUQueue.clear }

/-- The constructor of `Cache.ts`: validates `defaultTTL >= 0` and
`maximalItemCount >= 1`, otherwise refuses to construct. -/
def mkCache (defaultTTL maximalItemCount : ENum) (evictBy : CacheStrategy) :
    Option Config :=
  if ENum.lt defaultTTL (.fin 0) then none
  else if ENum.lt maximalItemCount (.fin 1) then none
  else some ⟨defaultTTL, maximalItemCount, evictBy⟩

/-- The initially empty backing store and recency structure. -/
def emptyMem : Mem K V := ⟨[], [], []⟩

end Cache

/-- A public cache operation, for reasoning about arbitrary call
sequences. -/
inductive Op (K V : Type) where
  | setO (k : K) (v : V) (opts : SetOpts)
  | getO (k : K) (asOf : Nat)
  | getItemO (k : K) (asOf : Nat)
  | peekO (k : K)
  | peekItemO (k : K)
  | hasO (k : K)
  | deleteO (k : K)
  | clearO
  | evictExpiredO (asOf : Nat)
  | setTTLO (k : K) (ttl : ENum) (t : Nat)
deriving DecidableEq, Repr

/-- The state transition of one public operation (return values dropped; a
throwing call leaves the memory as it stands at throw time, exactly as a JS
exception would). -/
def step (cfg : Config) : Op K V → Mem K V → Mem K V
  | .setO k v opts, m => (Cache.set cfg k v opts m).2
  | .getO k t, m => (Cache.get k t m).2
  | .getItemO k t, m => (Cache.getItem k t m).2
  | .peekO _, m => m
  | .peekItemO _, m => m
  | .hasO _, m => m
  | .deleteO k, m => (Cache.deleteKey k m).2
  | .clearO, m => Cache.clear m
  | .evictExpiredO t, m => (Cache.evictExpiredItems t m).2
  | .setTTLO k ttl t, m => (Cache.setTTL k ttl t m).2

/-- Execution of a sequence of public operations. -/
def exec (cfg : Config) : List (Op K V) → Mem K V → Mem K V
  | [], m => m
  | op :: rest, m => exec cfg rest (step cfg op m)

/-- The keys currently present in the store, in insertion order. -/
def storeKeys (m : Mem K V) : List K := m.store.map Prod.fst

/-- The dispose-callback ids of the items currently in the store. -/
def liveIds (m : Mem K V) : List Nat := m.store.filterMap (fun p => p.2.dispose)

/-- The multiset of dispose ids either already fired or still live in the
store; no operation can create ids out of thin air, so this only grows by
the ids supplied to `set` calls. -/
def usedM (m : Mem K V) : Multiset Nat :=
  (m.log : Multiset Nat) + (liveIds m : Multiset Nat)

/-- The dispose ids an operation introduces (only `set` introduces any). -/
def opIds : Op K V → List Nat
  | .setO _ _ opts => opts.dispose.toList
  | _ => []

/-- All dispose ids introduced by a sequence of operations. -/
def allIds : List (Op K V) → List Nat
  | [] => []
  | op :: rest => opIds op ++ allIds rest

/-- Key synchronization between the store and the recency structure: both
track exactly the same set of keys. -/
def Synced (m : Mem K V) : Prop := ∀ k : K, k ∈ storeKeys m ↔ k ∈ m.queue

/-- A well-formed memory: distinct store keys (as any ES6 `Map` guarantees)
and key synchronization between store and recency structure. -/
def WF (m : Mem K V) : Prop := (storeKeys m).Nodup ∧ Synced m

/-- The predicate `evictExpiredItems(t)` sweeps by: the entry is already
expired at `t`. -/
def isExpiredAt (t : Nat) (p : K × Item V) : Bool :=
  ENum.le p.2.expireAfterTimestamp (.fin t)

/-- The keys of the entries of `l` already expired at `t`, in insertion
order. -/
def expiredKeys (t : Nat) (l : List (K × Item V)) : List K :=
  (l.filter (isExpiredAt t)).map Prod.fst

/-- The dispose ids of the entries of `l` already expired at `t`, in
insertion order. -/
def expiredIds (t : Nat) (l : List (K × Item V)) : List Nat :=
  (l.filter (isExpiredAt t)).filterMap (fun p => p.2.dispose)

/-! Concrete scenarios used by the claims. Keys are numerals:
0 = `old` / `x` / `k1`, 1 = `new` / `k2`, 2 = `evenNewer` / `k3`. -/

/-- A capacity-2 `lru` configuration. -/
def cfgLru2 : Config := ⟨.inf, .fin 2, .lru⟩

/-- A capacity-2 `age` configuration. -/
def cfgAge2 : Config := ⟨.inf, .fin 2, .age⟩

/-- `set` options with no per-item TTL, storage timestamp `t` and dispose
callback id `d`. -/
def optsD (t d : Nat) : SetOpts := ⟨none, t, some d⟩

/-- The LRU scenario of the spec: insert `old`, insert `new`, read `old`,
insert `evenNewer`, on a capacity-2 `lru` cache (dispose ids 100, 101, 102
respectively). -/
def lruScenario : Mem Nat Nat :=
  exec cfgLru2
    [.setO 0 10 (optsD 0 100), .setO 1 11 (optsD 1 101),
     .getO 0 5, .setO 2 12 (optsD 5 102)]
    Cache.emptyMem

/-- The `age` variant of the LRU scenario: insert `old`, insert `new`, read
`old`, insert `evenNewer`, on a capacity-2 `age` cache — under the `age`
strategy the intervening read does not save `old` from eviction. -/
def ageReadScenario : Mem Nat Nat :=
  exec cfgAge2
    [.setO 0 10 (optsD 0 100), .setO 1 11 (optsD 1 101),
     .getO 0 5, .setO 2 12 (optsD 5 102)]
    Cache.emptyMem

/-- The TTL scenario of the spec: one item stored at timestamp 10000 with
ttl 5000 and dispose id 7, on a capacity-4 `lru` cache with default TTL
5000. -/
def ttlScenario : Mem Nat Nat :=
  (Cache.set ⟨.fin 5000, .fin 4, .lru⟩ 0 99 ⟨some (.fin 5000), 10000, some 7⟩
    Cache.emptyMem).2

/-- Overwrite-at-full-capacity scenario, LRU evicting the overwritten key
itself: insert key 0, insert key 1, then `set` key 0 again at capacity 2. -/
def overwriteSelfScenario : Mem Nat Nat :=
  exec cfgLru2
    [.setO 0 1 (optsD 0 100), .setO 1 2 (optsD 1 101), .setO 0 3 (optsD 2 102)]
    Cache.emptyMem

/-- The intermediate state of `overwriteSelfScenario` just before the
overwriting `set`: two live items at full capacity 2, key 0 least recently
used. -/
def fullPairMem : Mem Nat Nat :=
  ⟨[(0, ⟨1, .inf, 0, some 100⟩), (1, ⟨2, .inf, 1, some 101⟩)], [0, 1], []⟩

/-- Overwrite-at-full-capacity scenario leaving the cache strictly below
capacity: insert key 0, insert key 1, read key 0 (promoting it), then `set`
key 0 again at capacity 2 — the loop evicts key 1. -/
def overwriteShrinkScenario : Mem Nat Nat :=
  exec cfgLru2
    [.setO 0 1 (optsD 0 100), .setO 1 2 (optsD 1 101), .getO 0 2,
     .setO 0 3 (optsD 3 102)]
    Cache.emptyMem

end HamsterCache

namespace HamsterCache

/-- C2: on a cache constructed with the `lru` strategy and
`maximalItemCount` 2, the sequence `set(old)`, `set(new)`, `get(old)`,
`set(evenNewer)` evicts exactly the key `new` (the least recently touched):
`old` and `evenNewer` remain present with their values, `new` is absent and
exactly its dispose callback (id 101) has fired — the intervening `get`
refreshed `old`'s recency position and deferred its eviction. -/
theorem lru_policy_correctness :
    Cache.mkCache .inf (.fin 2) .lru = some cfgLru2
    ∧ Cache.hasKey 0 lruScenario = true
    ∧ Cache.peek 0 lruScenario = some 10
    ∧ Cache.hasKey 1 lruScenario = false
    ∧ Cache.peek 2 lruScenario = some 12
    ∧ lruScenario.log = [101]
    ∧ storeKeys lruScenario = [0, 2] := by decide

/-- C4: the item stored at timestamp 10000 with ttl 5000 has
`expireAfterTimestamp` 15000; `get` at 14999 returns its value without
touching the store, `get` at 15000 deletes the item (firing its dispose
callback, id 7) and returns absent, and `peek` still returns the value
because `peek` performs no TTL evaluation and no side effects. -/
theorem ttl_lazy_expiry_boundary :
    Cache.peekItem 0 ttlScenario = some ⟨99, .fin 15000, 10000, some 7⟩
    ∧ (Cache.get 0 14999 ttlScenario).1 = some 99
    ∧ (Cache.get 0 14999 ttlScenario).2.store = ttlScenario.store
    ∧ Cache.get 0 15000 ttlScenario = (none, ⟨[], [], [7]⟩)
    ∧ Cache.hasKey 0 (Cache.get 0 15000 ttlScenario).2 = false
    ∧ Cache.peek 0 ttlScenario = some 99 := by decide

/-- C7 (evaluating the code at the failing input): `delete` on a key not
tracked in the store throws a `TypeError` — the private `dispose` helper
reads `.dispose` of `undefined` — instead of returning the well-defined
"no removal occurred" result; shown on a freshly constructed empty cache
and on a key already expired and removed by a prior `get`. The state is
unchanged in both cases. -/
theorem delete_missing_key_throws :
    Cache.deleteKey 5 (Cache.emptyMem : Mem Nat Nat) = (.thrown, Cache.emptyMem)
    ∧ Cache.deleteKey 0 (Cache.get 0 15000 ttlScenario).2
      = (.thrown, (Cache.get 0 15000 ttlScenario).2) := by decide

end HamsterCache

namespace HamsterCache

theorem ENum.le_fin_iff {a b : Nat} : ENum.le (.fin a) (.fin b) = true ↔ a ≤ b := by
  simp [ENum.le]

theorem ENum.le_fin_false_iff {a b : Nat} : ENum.le (.fin a) (.fin b) = false ↔ b < a := by
  simp [ENum.le, Nat.lt_iff_add_one_le, Nat.not_le]

variable {K V : Type} [DecidableEq K]

theorem mapGet_eq_none {k : K} {l : List (K × Item V)} :
    mapGet k l = none ↔ k ∉ l.map Prod.fst := by
  simp only [mapGet, Option.map_eq_none', List.find?_eq_none, List.mem_map,
    decide_eq_true_eq]
  constructor
  · rintro h ⟨p, hp, rfl⟩
    exact h p hp rfl
  · intro h p hp hk
    exact h ⟨p, hp, hk⟩

theorem mapGet_isSome_iff {k : K} {l : List (K × Item V)} :
    (mapGet k l).isSome = true ↔ k ∈ l.map Prod.fst := by
  rcases h : mapGet k l with _ | it
  · simpa using (mapGet_eq_none.mp h)
  · simp only [Option.isSome_some, true_iff]
    rcases Option.map_eq_some'.mp h with ⟨p, hp, rfl⟩
    have hmem := List.mem_of_find?_eq_some hp
    have hpk : p.1 = k := by simpa using List.find?_some hp
    exact hpk ▸ List.mem_map_of_mem Prod.fst hmem

theorem mapGet_mem {k : K} {it : Item V} {l : List (K × Item V)}
    (h : mapGet k l = some it) : (k, it) ∈ l := by
  rcases Option.map_eq_some'.mp h with ⟨p, hp, rfl⟩
  have hmem := List.mem_of_find?_eq_some hp
  have hpk : p.1 = k := by simpa using List.find?_some hp
  rcases p with ⟨k', it'⟩
  cases hpk
  exact hmem

theorem mapGet_cons_self {k : K} {it : Item V} {rest : List (K × Item V)} :
    mapGet k ((k, it) :: rest) = some it := by
  simp [mapGet, List.find?_cons_of_pos]

theorem mapGet_cons_ne {k k' : K} {it : Item V} {rest : List (K × Item V)}
    (h : k' ≠ k) : mapGet k ((k', it) :: rest) = mapGet k rest := by
  simp [mapGet, List.find?_cons_of_neg, h]

theorem keys_mapDelete {k : K} {l : List (K × Item V)} :
    (mapDelete k l).map Prod.fst
      = (l.map Prod.fst).filter (fun x => decide (x ≠ k)) := by
  induction l with
  | nil => rfl
  | cons p rest ih =>
    by_cases hp : p.1 = k
    · simpa [mapDelete, List.filter_cons, hp] using ih
    · simpa [mapDelete, List.filter_cons, hp] using ih

theorem mapDelete_not_mem {k : K} {l : List (K × Item V)}
    (h : k ∉ l.map Prod.fst) : mapDelete k l = l := by
  apply List.filter_eq_self.mpr
  intro p hp
  simp only [decide_eq_true_eq]
  intro hk
  exact h (hk ▸ List.mem_map_of_mem Prod.fst hp)

theorem mapGet_mapDelete_ne {k k' : K} {l : List (K × Item V)} (h : k' ≠ k) :
    mapGet k' (mapDelete k l) = mapGet k' l := by
  induction l with
  | nil => rfl
  | cons p rest ih =>
    rcases p with ⟨a, it⟩
    by_cases hp : a = k
    · have ha : a ≠ k' := fun he => h (he ▸ hp)
      have hd : mapDelete k ((a, it) :: rest) = mapDelete k rest := by
        simp [mapDelete, List.filter_cons, hp]
      rw [hd, ih, mapGet_cons_ne ha]
    · have hd : mapDelete k ((a, it) :: rest) = (a, it) :: mapDelete k rest := by
        simp [mapDelete, List.filter_cons, hp]
      rw [hd]
      by_cases hak : a = k'
      · cases hak
        rw [mapGet_cons_self, mapGet_cons_self]
      · rw [mapGet_cons_ne hak, mapGet_cons_ne hak, ih]

theorem mapDelete_length_le {k : K} {l : List (K × Item V)} :
    (mapDelete k l).length ≤ l.length :=
  List.length_filter_le _ _

theorem mapDelete_length_lt {k : K} {it : Item V} {l : List (K × Item V)}
    (h : mapGet k l = some it) : (mapDelete k l).length < l.length := by
  induction l with
  | nil => simp [mapGet] at h
  | cons p rest ih =>
    rcases p with ⟨a, it'⟩
    by_cases hp : a = k
    · calc (mapDelete k ((a, it') :: rest)).length
          = (mapDelete k rest).length := by simp [mapDelete, List.filter_cons, hp]
        _ ≤ rest.length := mapDelete_length_le
        _ < ((a, it') :: rest).length := by simp
    · have h' : mapGet k rest = some it := by rwa [mapGet_cons_ne hp] at h
      calc (mapDelete k ((a, it') :: rest)).length
          = (mapDelete k rest).length + 1 := by simp [mapDelete, List.filter_cons, hp]
        _ < rest.length + 1 := Nat.add_lt_add_right (ih h') 1
        _ = ((a, it') :: rest).length := by simp

theorem mapGet_mapSet_self {k : K} {it : Item V} {l : List (K × Item V)} :
    mapGet k (mapSet k it l) = some it := by
  induction l with
  | nil => simp [mapSet, mapGet, List.find?]
  | cons p rest ih =>
    by_cases hp : p.1 = k
    · cases hp; simp [mapSet, mapGet_cons_self]
    · rw [mapSet, if_neg hp]
      rcases p with ⟨a, it'⟩
      rw [mapGet_cons_ne (by simpa using hp)]
      exact ih

theorem keys_mapSet_mem {k : K} {it : Item V} {l : List (K × Item V)}
    (h : k ∈ l.map Prod.fst) : (mapSet k it l).map Prod.fst = l.map Prod.fst := by
  induction l with
  | nil => simp at h
  | cons p rest ih =>
    by_cases hp : p.1 = k
    · simp [mapSet, hp]
    · have h' : k ∈ rest.map Prod.fst := by
        rcases List.mem_map.mp h with ⟨q, hq, rfl⟩
        rcases List.mem_cons.mp hq with rfl | hq'
        · exact absurd rfl hp
        · exact List.mem_map_of_mem Prod.fst hq'
      simp [mapSet, hp, ih h']

theorem mapSet_fresh {k : K} {it : Item V} {l : List (K × Item V)}
    (h : k ∉ l.map Prod.fst) : mapSet k it l = l ++ [(k, it)] := by
  induction l with
  | nil => rfl
  | cons p rest ih =>
    have hp : p.1 ≠ k := by
      intro hk
      exact h (hk ▸ List.mem_map_of_mem Prod.fst (List.mem_cons_self p rest))
    have h' : k ∉ rest.map Prod.fst := fun hm => h (List.mem_map.mp hm |>.elim
      (fun q hq => List.mem_map.mpr ⟨q, List.mem_cons_of_mem p hq.1, hq.2⟩))
    simp [mapSet, hp, ih h']

theorem length_mapSet {k : K} {it : Item V} {l : List (K × Item V)} :
    (mapSet k it l).length
      = if k ∈ l.map Prod.fst then l.length else l.length + 1 := by
  by_cases h : k ∈ l.map Prod.fst
  · rw [if_pos h, ← List.length_map (mapSet k it l) Prod.fst, keys_mapSet_mem h,
      List.length_map]
  · rw [if_neg h, mapSet_fresh h]
    simp

theorem mapGet_self_of_nodup {l : List (K × Item V)} (hnd : (l.map Prod.fst).Nodup) :
    ∀ p ∈ l, mapGet p.1 l = some p.2 := by
  induction l with
  | nil => intro p hp; simp at hp
  | cons q rest ih =>
    intro p hp
    have hnd' := List.nodup_cons.mp
      (show (q.1 :: rest.map Prod.fst).Nodup from hnd)
    rcases List.mem_cons.mp hp with rfl | hp'
    · rcases p with ⟨a, it⟩; exact mapGet_cons_self
    · have hna : q.1 ≠ p.1 := fun he =>
        hnd'.1 (he ▸ List.mem_map_of_mem Prod.fst hp')
      rcases q with ⟨a, it⟩
      rw [mapGet_cons_ne hna]
      exact ih hnd'.2 p hp'

theorem mem_qdelete {a k : K} {q : List K} :
    a ∈ LRUQueue.delete k q ↔ a ∈ q ∧ a ≠ k := by
  simp [LRUQueue.delete]

theorem mem_touch {a k : K} {q : List K} :
    a ∈ LRUQueue.touch k q ↔ a ∈ q := by
  unfold LRUQueue.touch
  by_cases h : k ∈ q
  · rw [if_pos h]
    simp only [List.mem_append, mem_qdelete, List.mem_singleton]
    constructor
    · rintro (⟨h1, _⟩ | rfl)
      · exact h1
      · exact h
    · intro ha
      by_cases hak : a = k
      · exact Or.inr hak
      · exact Or.inl ⟨ha, hak⟩
  · rw [if_neg h]

end HamsterCache

namespace HamsterCache

variable {K V : Type} [DecidableEq K]

theorem deleteKey_none {k : K} {m : Mem K V} (h : mapGet k m.store = none) :
    Cache.deleteKey k m = (.thrown, m) := by
  simp [Cache.deleteKey, Cache.dispose, h]

theorem deleteKey_some {k : K} {it : Item V} {m : Mem K V}
    (h : mapGet k m.store = some it) :
    Cache.deleteKey k m
      = (.ok true,
         ⟨mapDelete k m.store, LRUQueue.delete k m.queue,
          m.log ++ it.dispose.toList⟩) := by
  have hs : (mapGet k m.store).isSome = true := by rw [h]; rfl
  cases hd : it.dispose with
  | none => simp [Cache.deleteKey, Cache.dispose, h, hd, hs]
  | some d => simp [Cache.deleteKey, Cache.dispose, h, hd, hs]

theorem deleteOldestItem_nil {m : Mem K V} (h : m.store = []) :
    Cache.deleteOldestItem m = (.ok (), m) := by
  simp [Cache.deleteOldestItem, h]

theorem deleteOldestItem_cons {k : K} {it : Item V} {rest : List (K × Item V)}
    {m : Mem K V} (h : m.store = (k, it) :: rest) :
    Cache.deleteOldestItem m
      = (.ok (),
         ⟨mapDelete k m.store, LRUQueue.delete k m.queue,
          m.log ++ it.dispose.toList⟩) := by
  have hg : mapGet k m.store = some it := by rw [h]; exact mapGet_cons_self
  simp [Cache.deleteOldestItem, h, deleteKey_some hg]

theorem deleteLRU_nilQueue {m : Mem K V} (h : m.queue = []) :
    Cache.deleteLeastRecentlyUsedItem m = (.thrown, m) := by
  rcases m with ⟨s, q, lg⟩
  have h' : q = [] := h
  subst h'
  rfl

theorem deleteLRU_missing {k : K} {q : List K} {m : Mem K V}
    (hq : m.queue = k :: q) (h : mapGet k m.store = none) :
    Cache.deleteLeastRecentlyUsedItem m = (.thrown, { m with queue := q }) := by
  unfold Cache.deleteLeastRecentlyUsedItem LRUQueue.shift
  rw [hq]
  simp [Cache.dispose, h]

theorem deleteLRU_found {k : K} {q : List K} {it : Item V} {m : Mem K V}
    (hq : m.queue = k :: q) (h : mapGet k m.store = some it) :
    Cache.deleteLeastRecentlyUsedItem m
      = (.ok true,
         ⟨mapDelete k m.store, LRUQueue.delete k q,
          m.log ++ it.dispose.toList⟩) := by
  unfold Cache.deleteLeastRecentlyUsedItem LRUQueue.shift
  rw [hq]
  have hs : (mapGet k m.store).isSome = true := by rw [h]; rfl
  cases hd : it.dispose with
  | none => simp [Cache.dispose, h, hd, hs]
  | some d => simp [Cache.dispose, h, hd, hs]

theorem evictLoop_guard_false {cfg : Config} {m : Mem K V} {fuel : Nat}
    (h : ENum.le cfg.maximalItemCount (.fin m.store.length) = false) :
    Cache.evictLoop cfg fuel m = (.ok (), m) := by
  cases fuel with
  | zero => rfl
  | succ n => simp [Cache.evictLoop, h]

theorem evictOne_age {cfg : Config} (hcb : cfg.evictBy = .age) (m : Mem K V) :
    Cache.evictOne cfg m = Cache.deleteOldestItem m := by
  rcases cfg with ⟨dttl, mx, strat⟩
  have : strat = CacheStrategy.age := hcb
  subst this
  rfl

theorem evictOne_lru_thrown {cfg : Config} (hcb : cfg.evictBy = .lru)
    {m m' : Mem K V} (h : Cache.deleteLeastRecentlyUsedItem m = (.thrown, m')) :
    Cache.evictOne cfg m = (.thrown, m') := by
  rcases cfg with ⟨dttl, mx, strat⟩
  have hstrat : strat = CacheStrategy.lru := hcb
  subst hstrat
  show (match Cache.deleteLeastRecentlyUsedItem m with
        | (.thrown, m2) => ((JSRes.thrown : JSRes Unit), m2)
        | (.ok _, m2) => (JSRes.ok (), m2)) = (.thrown, m')
  rw [h]

theorem evictOne_lru_ok {cfg : Config} (hcb : cfg.evictBy = .lru)
    {m m' : Mem K V} {b : Bool}
    (h : Cache.deleteLeastRecentlyUsedItem m = (.ok b, m')) :
    Cache.evictOne cfg m = (.ok (), m') := by
  rcases cfg with ⟨dttl, mx, strat⟩
  have hstrat : strat = CacheStrategy.lru := hcb
  subst hstrat
  show (match Cache.deleteLeastRecentlyUsedItem m with
        | (.thrown, m2) => ((JSRes.thrown : JSRes Unit), m2)
        | (.ok _, m2) => (JSRes.ok (), m2)) = (.ok (), m')
  rw [h]

theorem evictOne_store_le {cfg : Config} {m : Mem K V} :
    ((Cache.evictOne cfg m).2).store.length ≤ m.store.length := by
  cases hcb : cfg.evictBy with
  | age =>
    rw [evictOne_age hcb]
    cases hs : m.store with
    | nil =>
      rw [deleteOldestItem_nil hs]
      show m.store.length ≤ [].length
      rw [hs]
    | cons p rest =>
      have hcons : m.store = (p.1, p.2) :: rest := hs
      rw [deleteOldestItem_cons hcons]
      show (mapDelete p.1 m.store).length ≤ (p :: rest).length
      rw [← hs]
      exact mapDelete_length_le
  | lru =>
    cases hq : m.queue with
    | nil => rw [evictOne_lru_thrown hcb (deleteLRU_nilQueue hq)]
    | cons k q =>
      cases hg : mapGet k m.store with
      | none => rw [evictOne_lru_thrown hcb (deleteLRU_missing hq hg)]
      | some it =>
        rw [evictOne_lru_ok hcb (deleteLRU_found hq hg)]
        exact mapDelete_length_le

theorem evictOne_ok_progress {cfg : Config} {m m' : Mem K V} {u : Unit}
    (hne : m.store ≠ [])
    (h : Cache.evictOne cfg m = (.ok u, m')) :
    m'.store.length < m.store.length := by
  cases hcb : cfg.evictBy with
  | age =>
    rw [evictOne_age hcb] at h
    cases hs : m.store with
    | nil => exact absurd hs hne
    | cons p rest =>
      have hcons : m.store = (p.1, p.2) :: rest := hs
      rw [deleteOldestItem_cons hcons] at h
      have hm' : m' = ⟨mapDelete p.1 m.store, LRUQueue.delete p.1 m.queue,
          m.log ++ p.2.dispose.toList⟩ := (congrArg Prod.snd h).symm
      have hg : mapGet p.1 m.store = some p.2 := by
        rw [hs]; exact mapGet_cons_self
      rw [hm', ← hs]
      exact mapDelete_length_lt hg
  | lru =>
    cases hq : m.queue with
    | nil =>
      rw [evictOne_lru_thrown hcb (deleteLRU_nilQueue hq)] at h
      exact absurd (congrArg Prod.fst h) (by simp)
    | cons k q =>
      cases hg : mapGet k m.store with
      | none =>
        rw [evictOne_lru_thrown hcb (deleteLRU_missing hq hg)] at h
        exact absurd (congrArg Prod.fst h) (by simp)
      | some it =>
        rw [evictOne_lru_ok hcb (deleteLRU_found hq hg)] at h
        have hm' : m' = ⟨mapDelete k m.store, LRUQueue.delete k q,
            m.log ++ it.dispose.toList⟩ := (congrArg Prod.snd h).symm
        rw [hm']
        exact mapDelete_length_lt hg

theorem evictLoop_store_le {cfg : Config} {fuel : Nat} {m : Mem K V} :
    ((Cache.evictLoop cfg fuel m).2).store.length ≤ m.store.length := by
  induction fuel generalizing m with
  | zero => exact Nat.le_refl _
  | succ n ih =>
    unfold Cache.evictLoop
    by_cases hg : ENum.le cfg.maximalItemCount (.fin m.store.length) = true
    · rw [if_pos hg]
      rcases he : Cache.evictOne cfg m with ⟨r, m1⟩
      have hle : m1.store.length ≤ m.store.length := by
        have := @evictOne_store_le K V _ cfg m
        rwa [he] at this
      cases r with
      | thrown => exact hle
      | ok u => exact Nat.le_trans (ih (m := m1)) hle
    · rw [if_neg hg]

theorem evictLoop_ok_lt {cfg : Config} {N : Nat} (hN : 1 ≤ N)
    (hmax : cfg.maximalItemCount = .fin N) :
    ∀ (fuel : Nat) (m : Mem K V) (u : Unit) (m' : Mem K V),
      m.store.length ≤ fuel →
      Cache.evictLoop cfg fuel m = (.ok u, m') →
      m'.store.length < N := by
  intro fuel
  induction fuel with
  | zero =>
    intro m u m' hle h
    cases h
    rw [Nat.le_zero.mp hle]
    exact hN
  | succ n ih =>
    intro m u m' hle h
    unfold Cache.evictLoop at h
    by_cases hg : ENum.le cfg.maximalItemCount (.fin m.store.length) = true
    · rw [if_pos hg] at h
      rcases he : Cache.evictOne cfg m with ⟨r, m1⟩
      rw [he] at h
      cases r with
      | thrown => cases h
      | ok _ =>
        have hlen : N ≤ m.store.length := by
          rw [hmax] at hg
          exact ENum.le_fin_iff.mp hg
        have hne : m.store ≠ [] := by
          intro hnil
          rw [hnil] at hlen
          exact Nat.not_succ_le_zero 0 (Nat.le_trans hN hlen)
        have hprog : m1.store.length < m.store.length :=
          evictOne_ok_progress hne he
        exact ih m1 u m' (Nat.le_of_lt_succ (Nat.lt_of_lt_of_le hprog hle)) h
    · rw [if_neg hg] at h
      cases h
      rw [hmax] at hg
      exact ENum.le_fin_false_iff.mp (by simpa using hg)

end HamsterCache

namespace HamsterCache

variable {K V : Type} [DecidableEq K]

theorem set_ttl_nonpos {cfg : Config} {k : K} {v : V} {opts : SetOpts}
    {m : Mem K V} (h : ENum.le (opts.ttl.getD cfg.defaultTTL) (.fin 0) = true) :
    Cache.set cfg k v opts m = (.ok false, m) := by
  simp [Cache.set, h]

theorem set_loop_thrown {cfg : Config} {k : K} {v : V} {opts : SetOpts}
    {m m' : Mem K V}
    (h : ENum.le (opts.ttl.getD cfg.defaultTTL) (.fin 0) = false)
    (hl : Cache.evictLoop cfg m.store.length m = (.thrown, m')) :
    Cache.set cfg k v opts m = (.thrown, m') := by
  simp [Cache.set, h, hl]

theorem set_loop_ok {cfg : Config} {k : K} {v : V} {opts : SetOpts}
    {m m' : Mem K V} {u : Unit}
    (h : ENum.le (opts.ttl.getD cfg.defaultTTL) (.fin 0) = false)
    (hl : Cache.evictLoop cfg m.store.length m = (.ok u, m')) :
    Cache.set cfg k v opts m
      = (.ok true,
         ⟨mapSet k (Cache.setItem cfg opts v) m'.store,
          LRUQueue.push k m'.queue, m'.log⟩) := by
  simp [Cache.set, Cache.setItem, h, hl]

theorem getItem_none {k : K} {t : Nat} {m : Mem K V}
    (hg : mapGet k m.store = none) :
    Cache.getItem k t m = (none, { m with queue := LRUQueue.touch k m.queue }) := by
  simp [Cache.getItem, hg]

theorem getItem_expired {k : K} {t : Nat} {it : Item V} {m : Mem K V}
    (hg : mapGet k m.store = some it)
    (hexp : ENum.le it.expireAfterTimestamp (.fin t) = true) :
    Cache.getItem k t m = (none, (Cache.deleteKey k m).2) := by
  simp [Cache.getItem, hg, hexp]

theorem getItem_live {k : K} {t : Nat} {it : Item V} {m : Mem K V}
    (hg : mapGet k m.store = some it)
    (hexp : ENum.le it.expireAfterTimestamp (.fin t) = false) :
    Cache.getItem k t m
      = (some it, { m with queue := LRUQueue.touch k m.queue }) := by
  simp [Cache.getItem, hg, hexp]

theorem setTTL_missing {k : K} {ttl : ENum} {t : Nat} {m : Mem K V}
    (hg : mapGet k m.store = none) :
    Cache.setTTL k ttl t m = (.thrown, m) := by
  simp [Cache.setTTL, hg]

theorem setTTL_found {k : K} {ttl : ENum} {t : Nat} {it : Item V} {m : Mem K V}
    (hg : mapGet k m.store = some it) :
    Cache.setTTL k ttl t m
      = (.ok (ENum.add (.fin t) ttl),
         { m with store :=
            (mapSet k { it with expireAfterTimestamp := ENum.add (.fin t) ttl }
              m.store) }) := by
  simp [Cache.setTTL, hg]

theorem deleteKey_store_le {k : K} {m : Mem K V} :
    ((Cache.deleteKey k m).2).store.length ≤ m.store.length := by
  cases hg : mapGet k m.store with
  | none => rw [deleteKey_none hg]
  | some it =>
    rw [deleteKey_some hg]
    exact mapDelete_length_le

theorem getItem_store_le {k : K} {t : Nat} {m : Mem K V} :
    ((Cache.getItem k t m).2).store.length ≤ m.store.length := by
  cases hg : mapGet k m.store with
  | none => rw [getItem_none hg]
  | some it =>
    by_cases hexp : ENum.le it.expireAfterTimestamp (.fin t) = true
    · rw [getItem_expired hg hexp]
      exact deleteKey_store_le
    · rw [getItem_live hg (by simpa using hexp)]

theorem sweepList_store_le {t : Nat} :
    ∀ (l : List (K × Item V)) (m : Mem K V),
      ((Cache.sweepList t l m).2).store.length ≤ m.store.length := by
  intro l
  induction l with
  | nil => intro m; exact Nat.le_refl _
  | cons p rest ih =>
    intro m
    unfold Cache.sweepList
    by_cases hexp : ENum.le p.2.expireAfterTimestamp (.fin t) = true
    · rw [if_pos hexp]
      rcases hd : Cache.deleteKey p.1 m with ⟨r, m1⟩
      have hle : m1.store.length ≤ m.store.length := by
        have := deleteKey_store_le (k := p.1) (m := m)
        rwa [hd] at this
      cases r with
      | thrown => exact hle
      | ok b => exact Nat.le_trans (ih m1) hle
    · rw [if_neg hexp]
      exact ih m

theorem step_size_le {cfg : Config} {N : Nat} (hN : 1 ≤ N)
    (hmax : cfg.maximalItemCount = .fin N) (op : Op K V) (m : Mem K V)
    (hm : m.store.length ≤ N) : (step cfg op m).store.length ≤ N := by
  cases op with
  | setO k v opts =>
    show ((Cache.set cfg k v opts m).2).store.length ≤ N
    by_cases httl : ENum.le (opts.ttl.getD cfg.defaultTTL) (.fin 0) = true
    · rw [set_ttl_nonpos httl]
      exact hm
    · rcases hl : Cache.evictLoop cfg m.store.length m with ⟨r, m1⟩
      cases r with
      | thrown =>
        rw [set_loop_thrown (by simpa using httl) hl]
        have hle : m1.store.length ≤ m.store.length := by
          have := @evictLoop_store_le K V _ cfg m.store.length m
          rwa [hl] at this
        exact Nat.le_trans hle hm
      | ok u =>
        rw [set_loop_ok (by simpa using httl) hl]
        have h1 : m1.store.length < N :=
          evictLoop_ok_lt hN hmax m.store.length m u m1 (Nat.le_refl _) hl
        show (mapSet k (Cache.setItem cfg opts v) m1.store).length ≤ N
        rw [length_mapSet]
        by_cases hk : k ∈ m1.store.map Prod.fst
        · rw [if_pos hk]
          exact Nat.le_of_lt h1
        · rw [if_neg hk]
          exact h1
  | getO k t =>
    show ((Cache.getItem k t m).2).store.length ≤ N
    exact Nat.le_trans getItem_store_le hm
  | getItemO k t =>
    show ((Cache.getItem k t m).2).store.length ≤ N
    exact Nat.le_trans getItem_store_le hm
  | peekO k => exact hm
  | peekItemO k => exact hm
  | hasO k => exact hm
  | deleteO k =>
    show ((Cache.deleteKey k m).2).store.length ≤ N
    exact Nat.le_trans deleteKey_store_le hm
  | clearO => exact Nat.zero_le N
  | evictExpiredO t =>
    show ((Cache.sweepList t m.store m).2).store.length ≤ N
    exact Nat.le_trans (sweepList_store_le m.store m) hm
  | setTTLO k ttl t =>
    show ((Cache.setTTL k ttl t m).2).store.length ≤ N
    cases hg : mapGet k m.store with
    | none =>
      rw [setTTL_missing hg]
      exact hm
    | some it =>
      rw [setTTL_found hg]
      show (mapSet k { it with expireAfterTimestamp := ENum.add (.fin t) ttl }
        m.store).length ≤ N
      rw [length_mapSet,
        if_pos (mapGet_isSome_iff.mp (by rw [hg]; rfl))]
      exact hm

theorem exec_size_le {cfg : Config} {N : Nat} (hN : 1 ≤ N)
    (hmax : cfg.maximalItemCount = .fin N) :
    ∀ (ops : List (Op K V)) (m : Mem K V),
      m.store.length ≤ N → (exec cfg ops m).store.length ≤ N := by
  intro ops
  induction ops with
  | nil => intro m hm; exact hm
  | cons op rest ih =>
    intro m hm
    exact ih (step cfg op m) (step_size_le hN hmax op m hm)

theorem ENum.lt_fin_zero (d : ENum) : ENum.lt d (.fin 0) = false := by
  cases d <;> simp [ENum.lt, ENum.le]

theorem mkCache_inv {dttl mx : ENum} {strat : CacheStrategy} {cfg : Config}
    (h : Cache.mkCache dttl mx strat = some cfg) :
    cfg = ⟨dttl, mx, strat⟩ ∧ ENum.lt mx (.fin 1) = false := by
  unfold Cache.mkCache at h
  rw [ENum.lt_fin_zero, if_neg (by simp)] at h
  by_cases hmx : ENum.lt mx (.fin 1) = true
  · rw [if_pos hmx] at h
    cases h
  · rw [if_neg hmx] at h
    exact ⟨(Option.some.injEq _ _ ▸ h).symm, by simpa using hmx⟩

end HamsterCache

namespace HamsterCache

/-- C1: a cache constructed with a finite `maximalItemCount` `N` and the
initially empty backing store keeps `size()` at most `N` after every public
operation — in particular after each call in any sequence of `set` calls. -/
theorem capacity_invariant {K V : Type} [DecidableEq K] {dttl : ENum}
    {N : Nat} {strat : CacheStrategy} {cfg : Config}
    (hmk : Cache.mkCache dttl (.fin N) strat = some cfg)
    (ops : List (Op K V)) :
    Cache.size (exec cfg ops Cache.emptyMem) ≤ N := by
  obtain ⟨hcfg, hlt⟩ := mkCache_inv hmk
  subst hcfg
  have hN : 1 ≤ N := by
    have : (!ENum.le (.fin 1) (.fin N)) = false := hlt
    have h1 : ENum.le (.fin 1) (.fin N) = true := by
      cases he : ENum.le (.fin 1) (.fin N)
      · rw [he] at this; cases this
      · rfl
    exact ENum.le_fin_iff.mp h1
  exact exec_size_le hN rfl ops Cache.emptyMem (by simp [Cache.emptyMem])

/-- Witness for C1 at a concrete input: capacity 2, `lru`, six operations
including overwrites and an eviction-triggering insert. -/
theorem capacity_invariant_witness :
    Cache.size
      (exec cfgLru2
        [Op.setO 0 10 (optsD 0 100), Op.setO 1 11 (optsD 1 101),
         Op.setO 2 12 (optsD 2 102), Op.getO 1 3, Op.setO 1 13 (optsD 4 103),
         Op.deleteO 2]
        (Cache.emptyMem : Mem Nat Nat)) ≤ 2 :=
  capacity_invariant
    ((by decide :
      Cache.mkCache ENum.inf (.fin 2) CacheStrategy.lru = some cfgLru2)) _

end HamsterCache

namespace HamsterCache

variable {K V : Type} [DecidableEq K]

theorem mem_keys_mapDelete {a k : K} {l : List (K × Item V)} :
    a ∈ (mapDelete k l).map Prod.fst ↔ a ∈ l.map Prod.fst ∧ a ≠ k := by
  rw [keys_mapDelete]
  simp [List.mem_filter]

theorem mem_keys_mapSet {a k : K} {it : Item V} {l : List (K × Item V)} :
    a ∈ (mapSet k it l).map Prod.fst ↔ a ∈ l.map Prod.fst ∨ a = k := by
  by_cases h : k ∈ l.map Prod.fst
  · rw [keys_mapSet_mem h]
    constructor
    · exact Or.inl
    · rintro (ha | rfl)
      · exact ha
      · exact h
  · rw [mapSet_fresh h]
    simp

theorem WF_removeAll {k : K} {m : Mem K V} (h : WF m) (lg : List Nat) :
    WF (⟨mapDelete k m.store, LRUQueue.delete k m.queue, lg⟩ : Mem K V) := by
  constructor
  · show ((mapDelete k m.store).map Prod.fst).Nodup
    rw [keys_mapDelete]
    exact h.1.filter _
  · intro a
    show a ∈ (mapDelete k m.store).map Prod.fst ↔ a ∈ LRUQueue.delete k m.queue
    rw [mem_keys_mapDelete, mem_qdelete]
    exact and_congr_left (fun _ => h.2 a)

theorem WF_deleteKey {k : K} {m : Mem K V} (h : WF m) :
    WF (Cache.deleteKey k m).2 := by
  cases hg : mapGet k m.store with
  | none => rw [deleteKey_none hg]; exact h
  | some it => rw [deleteKey_some hg]; exact WF_removeAll h _

theorem WF_evictOne {cfg : Config} {m : Mem K V} (h : WF m) :
    WF (Cache.evictOne cfg m).2 := by
  cases hcb : cfg.evictBy with
  | age =>
    rw [evictOne_age hcb]
    cases hs : m.store with
    | nil => rw [deleteOldestItem_nil hs]; exact h
    | cons p rest =>
      have hcons : m.store = (p.1, p.2) :: rest := hs
      rw [deleteOldestItem_cons hcons]
      exact WF_removeAll h _
  | lru =>
    cases hq : m.queue with
    | nil => rw [evictOne_lru_thrown hcb (deleteLRU_nilQueue hq)]; exact h
    | cons k q' =>
      cases hg : mapGet k m.store with
      | none =>
        exact absurd
          (mapGet_isSome_iff.mpr ((h.2 k).mpr (by rw [hq]; exact List.mem_cons_self k q')))
          (by rw [hg]; simp)
      | some it =>
        rw [evictOne_lru_ok hcb (deleteLRU_found hq hg)]
        have hdel : LRUQueue.delete k q' = LRUQueue.delete k m.queue := by
          rw [hq]
          simp [LRUQueue.delete]
        rw [hdel]
        exact WF_removeAll h _

theorem WF_evictLoop {cfg : Config} {fuel : Nat} {m : Mem K V} (h : WF m) :
    WF (Cache.evictLoop cfg fuel m).2 := by
  induction fuel generalizing m with
  | zero => exact h
  | succ n ih =>
    unfold Cache.evictLoop
    by_cases hg : ENum.le cfg.maximalItemCount (.fin m.store.length) = true
    · rw [if_pos hg]
      rcases he : Cache.evictOne cfg m with ⟨r, m1⟩
      have h1 : WF m1 := by
        have := @WF_evictOne K V _ cfg m h
        rwa [he] at this
      cases r with
      | thrown => exact h1
      | ok u => exact ih h1
    · rw [if_neg hg]
      exact h

theorem WF_push_mapSet {k : K} {it : Item V} {m : Mem K V} (h : WF m) (lg : List Nat) :
    WF (⟨mapSet k it m.store, LRUQueue.push k m.queue, lg⟩ : Mem K V) := by
  constructor
  · show ((mapSet k it m.store).map Prod.fst).Nodup
    by_cases hk : k ∈ m.store.map Prod.fst
    · rw [keys_mapSet_mem hk]
      exact h.1
    · rw [mapSet_fresh hk]
      simp only [List.map_append, List.map_cons, List.map_nil]
      rw [List.nodup_append]
      refine ⟨h.1, List.nodup_singleton k, ?_⟩
      intro a hmem hsing
      rw [List.mem_singleton] at hsing
      exact hk (hsing ▸ hmem)
  · intro a
    show a ∈ (mapSet k it m.store).map Prod.fst ↔ a ∈ m.queue ++ [k]
    rw [mem_keys_mapSet]
    simp only [List.mem_append, List.mem_singleton]
    exact or_congr_left (h.2 a)

theorem WF_set {cfg : Config} {k : K} {v : V} {opts : SetOpts} {m : Mem K V}
    (h : WF m) : WF (Cache.set cfg k v opts m).2 := by
  by_cases httl : ENum.le (opts.ttl.getD cfg.defaultTTL) (.fin 0) = true
  · rw [set_ttl_nonpos httl]; exact h
  · rcases hl : Cache.evictLoop cfg m.store.length m with ⟨r, m1⟩
    have h1 : WF m1 := by
      have := @WF_evictLoop K V _ cfg m.store.length m h
      rwa [hl] at this
    cases r with
    | thrown =>
      rw [set_loop_thrown (by simpa using httl) hl]
      exact h1
    | ok u =>
      rw [set_loop_ok (by simpa using httl) hl]
      exact WF_push_mapSet h1 _

theorem WF_touch {k : K} {m : Mem K V} (h : WF m) :
    WF { m with queue := LRUQueue.touch k m.queue } := by
  refine ⟨h.1, fun a => ?_⟩
  show a ∈ storeKeys m ↔ a ∈ LRUQueue.touch k m.queue
  rw [mem_touch]
  exact h.2 a

theorem WF_getItem {k : K} {t : Nat} {m : Mem K V} (h : WF m) :
    WF (Cache.getItem k t m).2 := by
  cases hg : mapGet k m.store with
  | none => rw [getItem_none hg]; exact WF_touch h
  | some it =>
    by_cases hexp : ENum.le it.expireAfterTimestamp (.fin t) = true
    · rw [getItem_expired hg hexp]
      exact WF_deleteKey h
    · rw [getItem_live hg (by simpa using hexp)]
      exact WF_touch h

theorem WF_sweepList {t : Nat} :
    ∀ (l : List (K × Item V)) (m : Mem K V), WF m → WF (Cache.sweepList t l m).2 := by
  intro l
  induction l with
  | nil => intro m h; exact h
  | cons p rest ih =>
    intro m h
    unfold Cache.sweepList
    by_cases hexp : ENum.le p.2.expireAfterTimestamp (.fin t) = true
    · rw [if_pos hexp]
      rcases hd : Cache.deleteKey p.1 m with ⟨r, m1⟩
      have h1 : WF m1 := by
        have := WF_deleteKey (k := p.1) h
        rwa [hd] at this
      cases r with
      | thrown => exact h1
      | ok b => exact ih m1 h1
    · rw [if_neg hexp]
      exact ih m h

theorem WF_setTTL {k : K} {ttl : ENum} {t : Nat} {m : Mem K V} (h : WF m) :
    WF (Cache.setTTL k ttl t m).2 := by
  cases hg : mapGet k m.store with
  | none => rw [setTTL_missing hg]; exact h
  | some it =>
    rw [setTTL_found hg]
    have hk : k ∈ m.store.map Prod.fst :=
      mapGet_isSome_iff.mp (by rw [hg]; rfl)
    refine ⟨?_, fun a => ?_⟩
    · show ((mapSet k _ m.store).map Prod.fst).Nodup
      rw [keys_mapSet_mem hk]
      exact h.1
    · show a ∈ (mapSet k _ m.store).map Prod.fst ↔ a ∈ m.queue
      rw [keys_mapSet_mem hk]
      exact h.2 a

theorem WF_step {cfg : Config} (op : Op K V) {m : Mem K V} (h : WF m) :
    WF (step cfg op m) := by
  cases op with
  | setO k v opts => exact WF_set h
  | getO k t => exact WF_getItem h
  | getItemO k t => exact WF_getItem h
  | peekO k => exact h
  | peekItemO k => exact h
  | hasO k => exact h
  | deleteO k => exact WF_deleteKey h
  | clearO =>
    refine ⟨List.nodup_nil, fun a => ?_⟩
    show a ∈ ([] : List (K × Item V)).map Prod.fst ↔ a ∈ ([] : List K)
    simp
  | evictExpiredO t => exact WF_sweepList m.store m h
  | setTTLO k ttl t => exact WF_setTTL h

theorem WF_exec {cfg : Config} :
    ∀ (ops : List (Op K V)) (m : Mem K V), WF m → WF (exec cfg ops m) := by
  intro ops
  induction ops with
  | nil => intro m h; exact h
  | cons op rest ih => intro m h; exact ih (step cfg op m) (WF_step op h)

/-- C9: from a freshly constructed cache, after any sequence of public
operations the set of keys tracked by the recency structure is exactly the
set of keys present in the store (even though `set` on an already-present
key pushes the key into the recency structure again, the modelled
key-level `LRUQueue.delete` keeps both structures key-synchronized). -/
theorem key_sync_invariant {K V : Type} [DecidableEq K] (cfg : Config)
    (ops : List (Op K V)) :
    Synced (exec cfg ops Cache.emptyMem) :=
  (WF_exec ops Cache.emptyMem
    ⟨List.nodup_nil, fun a => by simp [Cache.emptyMem, storeKeys]⟩).2

end HamsterCache

namespace HamsterCache

/-- C8: for a tracked key, `setTTL(key, ttl, t)` overwrites the item's
`expireAfterTimestamp` to exactly `t + ttl` — regardless of the prior
expiry value, which does not occur in the result — and returns that new
timestamp; for an untracked key it reports a failure condition (the thrown
`TypeError`) and performs no state mutation. -/
theorem setTTL_contract {K V : Type} [DecidableEq K] (k : K) (ttl : ENum)
    (t : Nat) (m : Mem K V) :
    (∀ it : Item V, mapGet k m.store = some it →
      (Cache.setTTL k ttl t m).1 = .ok (ENum.add (.fin t) ttl)
      ∧ Cache.peekItem k (Cache.setTTL k ttl t m).2
          = some { it with expireAfterTimestamp := ENum.add (.fin t) ttl })
    ∧ (mapGet k m.store = none →
        Cache.setTTL k ttl t m = (.thrown, m)) := by
  constructor
  · intro it hg
    rw [setTTL_found hg]
    constructor
    · rfl
    · show mapGet k (mapSet k _ m.store) = _
      rw [mapGet_mapSet_self]
  · intro hg
    exact setTTL_missing hg

/-- Witness for C8 at the spec's concrete instance: `setTTL(key, 100, 100)`
on a tracked key whose prior expiry was 15000 yields exactly 200, and
`setTTL` on an untracked key throws leaving the state unchanged. -/
theorem setTTL_contract_witness :
    ((Cache.setTTL 0 (.fin 100) 100 ttlScenario).1 = .ok (ENum.add (.fin 100) (.fin 100))
      ∧ Cache.peekItem 0 (Cache.setTTL 0 (.fin 100) 100 ttlScenario).2
          = some ⟨99, ENum.add (.fin 100) (.fin 100), 10000, some 7⟩)
    ∧ Cache.setTTL 3 (.fin 100) 100 ttlScenario = (.thrown, ttlScenario) :=
  ⟨(setTTL_contract 0 (.fin 100) 100 ttlScenario).1
      ⟨99, .fin 15000, 10000, some 7⟩ (by decide),
   (setTTL_contract 3 (.fin 100) 100 ttlScenario).2 (by decide)⟩

end HamsterCache

namespace HamsterCache

variable {K V : Type} [DecidableEq K]

theorem expiredKeys_cons_pos {t : Nat} {p : K × Item V} {rest : List (K × Item V)}
    (h : isExpiredAt t p = true) :
    expiredKeys t (p :: rest) = p.1 :: expiredKeys t rest := by
  simp [expiredKeys, List.filter_cons, h]

theorem expiredKeys_cons_neg {t : Nat} {p : K × Item V} {rest : List (K × Item V)}
    (h : isExpiredAt t p = false) :
    expiredKeys t (p :: rest) = expiredKeys t rest := by
  simp [expiredKeys, List.filter_cons, h]

theorem expiredIds_cons_pos {t : Nat} {p : K × Item V} {rest : List (K × Item V)}
    (h : isExpiredAt t p = true) :
    expiredIds t (p :: rest) = p.2.dispose.toList ++ expiredIds t rest := by
  cases hd : p.2.dispose with
  | none => simp [expiredIds, List.filter_cons, h, List.filterMap_cons, hd]
  | some d => simp [expiredIds, List.filter_cons, h, List.filterMap_cons, hd]

theorem expiredIds_cons_neg {t : Nat} {p : K × Item V} {rest : List (K × Item V)}
    (h : isExpiredAt t p = false) :
    expiredIds t (p :: rest) = expiredIds t rest := by
  simp [expiredIds, List.filter_cons, h]

theorem sweepList_spec {t : Nat} :
    ∀ (l : List (K × Item V)) (m : Mem K V),
      (l.map Prod.fst).Nodup →
      (∀ p ∈ l, mapGet p.1 m.store = some p.2) →
      Cache.sweepList t l m
        = (.ok (),
           ⟨m.store.filter (fun q => !decide (q.1 ∈ expiredKeys t l)),
            m.queue.filter (fun x => !decide (x ∈ expiredKeys t l)),
            m.log ++ expiredIds t l⟩) := by
  intro l
  induction l with
  | nil =>
    intro m _ _
    simp [Cache.sweepList, expiredKeys, expiredIds]
  | cons p rest ih =>
    intro m hnd hfind
    have hnd' := List.nodup_cons.mp
      (show (p.1 :: rest.map Prod.fst).Nodup from hnd)
    have hp : mapGet p.1 m.store = some p.2 := hfind p (List.mem_cons_self p rest)
    unfold Cache.sweepList
    by_cases hexp : isExpiredAt t p = true
    · have hbind : ∀ q ∈ rest,
          mapGet q.1 (mapDelete p.1 m.store) = some q.2 := by
        intro q hq
        have hne : q.1 ≠ p.1 := fun he =>
          hnd'.1 (he ▸ List.mem_map_of_mem Prod.fst hq)
        rw [mapGet_mapDelete_ne hne]
        exact hfind q (List.mem_cons_of_mem p hq)
      rw [if_pos (show ENum.le p.2.expireAfterTimestamp (.fin t) = true from hexp),
        deleteKey_some hp, expiredKeys_cons_pos hexp, expiredIds_cons_pos hexp]
      show Cache.sweepList t rest
          (⟨mapDelete p.1 m.store, LRUQueue.delete p.1 m.queue,
            m.log ++ p.2.dispose.toList⟩ : Mem K V)
        = (.ok (),
           ⟨m.store.filter (fun q => !decide (q.1 ∈ p.1 :: expiredKeys t rest)),
            m.queue.filter (fun x => !decide (x ∈ p.1 :: expiredKeys t rest)),
            m.log ++ (p.2.dispose.toList ++ expiredIds t rest)⟩)
      rw [ih _ hnd'.2 hbind]
      simp only [Prod.mk.injEq, Mem.mk.injEq, true_and]
      refine ⟨?_, ?_, ?_⟩
      · show (mapDelete p.1 m.store).filter _ = _
        rw [mapDelete, List.filter_filter]
        apply List.filter_congr
        intro q _
        by_cases h1 : q.1 = p.1 <;> by_cases h2 : q.1 ∈ expiredKeys t rest <;>
          simp [h1, h2]
      · show (LRUQueue.delete p.1 m.queue).filter _ = _
        rw [LRUQueue.delete, List.filter_filter]
        apply List.filter_congr
        intro x _
        by_cases h1 : x = p.1 <;> by_cases h2 : x ∈ expiredKeys t rest <;>
          simp [h1, h2]
      · show (m.log ++ p.2.dispose.toList) ++ expiredIds t rest
          = m.log ++ (p.2.dispose.toList ++ expiredIds t rest)
        rw [List.append_assoc]
    · rw [if_neg (show ¬ ENum.le p.2.expireAfterTimestamp (.fin t) = true by
        simpa [isExpiredAt] using hexp)]
      rw [ih m hnd'.2 (fun q hq => hfind q (List.mem_cons_of_mem p hq)),
        expiredKeys_cons_neg (by simpa using hexp),
        expiredIds_cons_neg (by simpa using hexp)]

end HamsterCache

namespace HamsterCache

variable {K V : Type} [DecidableEq K]

theorem mapGet_filter_keep {k : K} {it : Item V} {pred : K × Item V → Bool} :
    ∀ {l : List (K × Item V)}, (l.map Prod.fst).Nodup → (k, it) ∈ l →
      pred (k, it) = true → mapGet k (l.filter pred) = some it := by
  intro l
  induction l with
  | nil => intro _ hm; simp at hm
  | cons q rest ih =>
    intro hnd hm hkeep
    have hnd' := List.nodup_cons.mp
      (show (q.1 :: rest.map Prod.fst).Nodup from hnd)
    rcases List.mem_cons.mp hm with rfl | hm'
    · rw [List.filter_cons, if_pos (by simpa using hkeep)]
      exact mapGet_cons_self
    · have hne : q.1 ≠ k := fun he =>
        hnd'.1 (he ▸ List.mem_map_of_mem Prod.fst hm')
      rw [List.filter_cons]
      by_cases hq : pred q = true
      · rw [if_pos (by simpa using hq)]
        rcases q with ⟨a, it'⟩
        rw [mapGet_cons_ne hne]
        exact ih hnd'.2 hm' hkeep
      · rw [if_neg (by simpa using hq)]
        exact ih hnd'.2 hm' hkeep

theorem mapGet_filter_dropKey {k : K} {bad : List K} {l : List (K × Item V)}
    (hk : k ∈ bad) :
    mapGet k (l.filter (fun q => !decide (q.1 ∈ bad))) = none := by
  rw [mapGet_eq_none]
  intro hmem
  rcases List.mem_map.mp hmem with ⟨q, hq, rfl⟩
  have := (List.mem_filter.mp hq).2
  simp only [Bool.not_eq_true', decide_eq_false_iff_not] at this
  exact this hk

/-- C6: for every cache state (with the distinct keys any ES6 `Map`
guarantees) and timestamp `t`, `evictExpiredItems(t)` removes with
disposal exactly the entries whose `expireAfterTimestamp <= t` — the
resulting store is the original filtered to the unexpired entries, the
recency queue keeps exactly the surviving keys in their order, the fired
dispose ids are exactly those of the expired entries in insertion order,
every expired key is absent afterwards, and every other item remains
present with its value and metadata unchanged. -/
theorem sweep_correctness (t : Nat) (m : Mem K V)
    (hnd : (storeKeys m).Nodup) :
    Cache.evictExpiredItems t m
      = (.ok (),
         ⟨m.store.filter (fun q => !decide (q.1 ∈ expiredKeys t m.store)),
          m.queue.filter (fun x => !decide (x ∈ expiredKeys t m.store)),
          m.log ++ expiredIds t m.store⟩)
    ∧ (∀ p ∈ m.store, isExpiredAt t p = true →
        Cache.hasKey p.1 (Cache.evictExpiredItems t m).2 = false)
    ∧ (∀ p ∈ m.store, isExpiredAt t p = false →
        Cache.peekItem p.1 (Cache.evictExpiredItems t m).2 = some p.2) := by
  have hmain := @sweepList_spec K V _ t m.store m hnd (mapGet_self_of_nodup hnd)
  refine ⟨hmain, ?_, ?_⟩
  · intro p hp hexp
    show ((mapGet p.1 ((Cache.evictExpiredItems t m).2).store).isSome) = false
    have h2 : ((Cache.evictExpiredItems t m).2).store
        = m.store.filter (fun q => !decide (q.1 ∈ expiredKeys t m.store)) := by
      rw [show Cache.evictExpiredItems t m = Cache.sweepList t m.store m from rfl,
        hmain]
    have hk : p.1 ∈ expiredKeys t m.store :=
      List.mem_map_of_mem Prod.fst (List.mem_filter.mpr ⟨hp, hexp⟩)
    rw [h2, mapGet_filter_dropKey hk]
    rfl
  · intro p hp hexp
    show mapGet p.1 ((Cache.evictExpiredItems t m).2).store = some p.2
    have h2 : ((Cache.evictExpiredItems t m).2).store
        = m.store.filter (fun q => !decide (q.1 ∈ expiredKeys t m.store)) := by
      rw [show Cache.evictExpiredItems t m = Cache.sweepList t m.store m from rfl,
        hmain]
    rw [h2]
    rcases p with ⟨k, it⟩
    apply mapGet_filter_keep hnd hp
    simp only [Bool.not_eq_true', decide_eq_false_iff_not]
    intro hmem
    rcases List.mem_map.mp hmem with ⟨q, hq, hqk⟩
    rcases List.mem_filter.mp hq with ⟨hql, hqexp⟩
    have hsame : q = (k, it) := by
      have h1 : mapGet q.1 m.store = some q.2 := mapGet_self_of_nodup hnd q hql
      have h2' : mapGet k m.store = some it := mapGet_self_of_nodup hnd _ hp
      rw [hqk] at h1
      rw [h1] at h2'
      rcases q with ⟨a, b⟩
      have hb : b = it := Option.some_inj.mp h2'
      have ha : a = k := hqk
      rw [hb, ha]
    rw [hsame] at hqexp
    rw [hqexp] at hexp
    cases hexp

end HamsterCache

namespace HamsterCache

variable {K V : Type} [DecidableEq K]

theorem exec_append {cfg : Config} :
    ∀ (l1 l2 : List (Op K V)) (m : Mem K V),
      exec cfg (l1 ++ l2) m = exec cfg l2 (exec cfg l1 m) := by
  intro l1
  induction l1 with
  | nil => intro l2 m; rfl
  | cons op rest ih => intro l2 m; exact ih l2 (step cfg op m)

theorem qdelete_not_mem {k : K} {q : List K} (h : k ∉ q) :
    LRUQueue.delete k q = q := by
  apply List.filter_eq_self.mpr
  intro a ha
  simp only [decide_eq_true_eq]
  intro he
  exact h (he ▸ ha)

theorem qdelete_cons_self {k : K} {q : List K} :
    LRUQueue.delete k (k :: q) = LRUQueue.delete k q := by
  simp [LRUQueue.delete, List.filter_cons]

theorem keys_entries {it : Item V} (l : List K) :
    ((l.map (fun k => (k, it))).map Prod.fst) = l := by
  rw [List.map_map]
  exact List.map_id l

theorem evictLoop_once_ok {cfg : Config} {n : Nat} {m m1 : Mem K V} {u : Unit}
    (hg : ENum.le cfg.maximalItemCount (.fin m.store.length) = true)
    (he : Cache.evictOne cfg m = (.ok u, m1))
    (hg1 : ENum.le cfg.maximalItemCount (.fin m1.store.length) = false) :
    Cache.evictLoop cfg (n + 1) m = (.ok (), m1) := by
  unfold Cache.evictLoop
  rw [if_pos hg, he]
  show Cache.evictLoop cfg n m1 = (.ok (), m1)
  exact evictLoop_guard_false hg1

theorem exec_insert_fresh {N : Nat} {strat : CacheStrategy} (v : V) :
    ∀ (ks : List K) (m : Mem K V),
      ks.Nodup → (∀ k ∈ ks, k ∉ storeKeys m) →
      m.store.length + ks.length ≤ N →
      exec (⟨.inf, .fin N, strat⟩ : Config)
          (ks.map (fun k => Op.setO k v ⟨none, 0, none⟩)) m
        = ⟨m.store ++ ks.map (fun k => (k, ⟨v, .inf, 0, none⟩)),
           m.queue ++ ks, m.log⟩ := by
  intro ks
  induction ks with
  | nil =>
    intro m _ _ _
    simp [exec]
  | cons k ks' ih =>
    intro m hnd hfresh hlen
    have hnd' := List.nodup_cons.mp hnd
    have hguard : ENum.le (ENum.fin N) (.fin m.store.length) = false := by
      rw [ENum.le_fin_false_iff]
      have : m.store.length + 1 ≤ N := by
        have := hlen
        simp only [List.length_cons] at this
        omega
      omega
    have hset : Cache.set (⟨.inf, .fin N, strat⟩ : Config) k v ⟨none, 0, none⟩ m
        = (.ok true, ⟨mapSet k ⟨v, .inf, 0, none⟩ m.store,
                      LRUQueue.push k m.queue, m.log⟩) := by
      have := @set_loop_ok K V _ ⟨.inf, .fin N, strat⟩ k v ⟨none, 0, none⟩ m m ()
        (by rfl) (evictLoop_guard_false hguard)
      simpa [Cache.setItem] using this
    show exec _ (Op.setO k v ⟨none, 0, none⟩ ::
        ks'.map (fun k => Op.setO k v ⟨none, 0, none⟩)) m = _
    show exec _ (ks'.map (fun k => Op.setO k v ⟨none, 0, none⟩))
        ((Cache.set (⟨.inf, .fin N, strat⟩ : Config) k v ⟨none, 0, none⟩ m).2) = _
    rw [hset]
    have hfreshk : k ∉ storeKeys m := hfresh k (List.mem_cons_self k ks')
    have hms : mapSet k (⟨v, .inf, 0, none⟩ : Item V) m.store
        = m.store ++ [(k, ⟨v, .inf, 0, none⟩)] := mapSet_fresh hfreshk
    rw [ih ⟨mapSet k ⟨v, .inf, 0, none⟩ m.store, LRUQueue.push k m.queue, m.log⟩
      hnd'.2 ?_ ?_]
    · show (⟨(mapSet k (⟨v, .inf, 0, none⟩ : Item V) m.store)
          ++ ks'.map (fun k => (k, ⟨v, .inf, 0, none⟩)),
          LRUQueue.push k m.queue ++ ks', m.log⟩ : Mem K V) = _
      rw [hms, LRUQueue.push, List.append_assoc, List.append_assoc]
      rfl
    · intro k' hk'
      show k' ∉ (mapSet k (⟨v, .inf, 0, none⟩ : Item V) m.store).map Prod.fst
      rw [hms]
      simp only [List.map_append, List.map_cons, List.map_nil, List.mem_append,
        List.mem_singleton, List.mem_cons]
      rintro (hmem | hmem)
      · exact hfresh k' (List.mem_cons_of_mem k hk') hmem
      · simp only [List.not_mem_nil, or_false] at hmem
        exact hnd'.1 (hmem ▸ hk')
    · show (mapSet k (⟨v, .inf, 0, none⟩ : Item V) m.store).length + ks'.length ≤ N
      rw [hms]
      simp only [List.length_append, List.length_singleton]
      simp only [List.length_cons] at hlen
      omega

end HamsterCache

namespace HamsterCache

variable {K V : Type} [DecidableEq K]

theorem age_insert_final {N : Nat} (hN : 1 ≤ N) (v : V) (k1 : K)
    (rest : List K) (hnd : (k1 :: rest).Nodup) (hlen : rest.length = N) :
    exec (⟨.inf, .fin N, .age⟩ : Config)
        ((k1 :: rest).map (fun k => Op.setO k v ⟨none, 0, none⟩))
        Cache.emptyMem
      = ⟨rest.map (fun k => (k, ⟨v, .inf, 0, none⟩)), rest, []⟩ := by
  have hne : rest ≠ [] := by
    intro h
    rw [h] at hlen
    simp at hlen
    omega
  have hsplit : rest.dropLast ++ [rest.getLast hne] = rest :=
    List.dropLast_append_getLast hne
  have hnd1 := List.nodup_cons.mp hnd
  have hdlnd : rest.dropLast.Nodup ∧ rest.getLast hne ∉ rest.dropLast := by
    have h1 : (rest.dropLast ++ [rest.getLast hne]).Nodup := by
      rw [hsplit]; exact hnd1.2
    rw [List.nodup_append] at h1
    exact ⟨h1.1, fun hm => h1.2.2 hm (List.mem_singleton.mpr rfl)⟩
  have hk1dl : k1 ∉ rest.dropLast := fun hm =>
    hnd1.1 (by rw [← hsplit]; exact List.mem_append_left _ hm)
  have hdllen : rest.dropLast.length = N - 1 := by
    rw [List.length_dropLast, hlen]
  have hlist : (k1 :: rest).map (fun k => Op.setO k v (⟨none, 0, none⟩ : SetOpts))
      = ((k1 :: rest.dropLast).map (fun k => Op.setO k v ⟨none, 0, none⟩))
        ++ [Op.setO (rest.getLast hne) v ⟨none, 0, none⟩] := by
    conv =>
      lhs
      rw [← hsplit]
    simp
  rw [hlist, exec_append]
  have hfront := @exec_insert_fresh K V _ N CacheStrategy.age v (k1 :: rest.dropLast)
    Cache.emptyMem
    (List.nodup_cons.mpr ⟨hk1dl, hdlnd.1⟩)
    (by intro k _; show k ∉ ([] : List (K × Item V)).map Prod.fst; simp)
    (by simp [Cache.emptyMem, hdllen]; omega)
  rw [hfront]
  show step (⟨.inf, .fin N, .age⟩ : Config)
      (Op.setO (rest.getLast hne) v ⟨none, 0, none⟩)
      ⟨[] ++ (k1 :: rest.dropLast).map (fun k => (k, ⟨v, .inf, 0, none⟩)),
       [] ++ (k1 :: rest.dropLast), []⟩ = _
  simp only [List.nil_append, List.map_cons]
  show (Cache.set (⟨.inf, .fin N, .age⟩ : Config) (rest.getLast hne) v
      ⟨none, 0, none⟩
      ⟨(k1, ⟨v, .inf, 0, none⟩) ::
        rest.dropLast.map (fun k => (k, ⟨v, .inf, 0, none⟩)), k1 :: rest.dropLast,
       []⟩).2 = _
  have hstorelen :
      ((k1, (⟨v, .inf, 0, none⟩ : Item V)) ::
        rest.dropLast.map (fun k => (k, ⟨v, .inf, 0, none⟩))).length = N := by
    simp [hdllen]
    omega
  have hguard : ENum.le (ENum.fin N) (.fin N) = true := ENum.le_fin_iff.mpr (le_refl N)
  have hdel : mapDelete k1
      ((k1, (⟨v, .inf, 0, none⟩ : Item V)) ::
        rest.dropLast.map (fun k => (k, ⟨v, .inf, 0, none⟩)))
      = rest.dropLast.map (fun k => (k, ⟨v, .inf, 0, none⟩)) := by
    rw [show mapDelete k1
        ((k1, (⟨v, .inf, 0, none⟩ : Item V)) ::
          rest.dropLast.map (fun k => (k, ⟨v, .inf, 0, none⟩)))
        = mapDelete k1 (rest.dropLast.map (fun k => (k, ⟨v, .inf, 0, none⟩)))
      by simp [mapDelete, List.filter_cons]]
    apply mapDelete_not_mem
    rw [keys_entries]
    exact hk1dl
  have hqdel : LRUQueue.delete k1 (k1 :: rest.dropLast) = rest.dropLast := by
    rw [qdelete_cons_self]
    exact qdelete_not_mem hk1dl
  have hone : Cache.evictOne (⟨.inf, .fin N, .age⟩ : Config)
      (⟨(k1, ⟨v, .inf, 0, none⟩) ::
          rest.dropLast.map (fun k => (k, ⟨v, .inf, 0, none⟩)),
        k1 :: rest.dropLast, []⟩ : Mem K V)
      = (.ok (), ⟨rest.dropLast.map (fun k => (k, ⟨v, .inf, 0, none⟩)),
          rest.dropLast, []⟩) := by
    rw [evictOne_age rfl]
    rw [deleteOldestItem_cons rfl]
    show (JSRes.ok (),
        (⟨mapDelete k1 ((k1, (⟨v, .inf, 0, none⟩ : Item V)) ::
            rest.dropLast.map (fun k => (k, ⟨v, .inf, 0, none⟩))),
          LRUQueue.delete k1 (k1 :: rest.dropLast), [] ++ []⟩ : Mem K V)) = _
    rw [hdel, hqdel]
    rfl
  obtain ⟨n, rfl⟩ : ∃ n, N = n + 1 := ⟨N - 1, by omega⟩
  have hloop : Cache.evictLoop (⟨.inf, .fin (n+1), .age⟩ : Config)
      ((k1, (⟨v, .inf, 0, none⟩ : Item V)) ::
        rest.dropLast.map (fun k => (k, ⟨v, .inf, 0, none⟩))).length
      (⟨(k1, ⟨v, .inf, 0, none⟩) ::
          rest.dropLast.map (fun k => (k, ⟨v, .inf, 0, none⟩)),
        k1 :: rest.dropLast, []⟩ : Mem K V)
      = (.ok (), ⟨rest.dropLast.map (fun k => (k, ⟨v, .inf, 0, none⟩)),
          rest.dropLast, []⟩) := by
    rw [hstorelen]
    have hg1 : ENum.le (ENum.fin (n + 1))
        (.fin ((rest.dropLast.map
          (fun k => (k, (⟨v, .inf, 0, none⟩ : Item V)))).length)) = false := by
      rw [ENum.le_fin_false_iff, List.length_map, hdllen]
      omega
    exact evictLoop_once_ok (by rw [hstorelen]; exact hguard) hone hg1
  rw [@set_loop_ok K V _ ⟨.inf, .fin (n+1), .age⟩ (rest.getLast hne) v
    ⟨none, 0, none⟩ _ _ () (by rfl) hloop]
  show (⟨mapSet (rest.getLast hne) (Cache.setItem ⟨.inf, .fin (n+1), .age⟩ ⟨none, 0, none⟩ v)
      (rest.dropLast.map (fun k => (k, ⟨v, .inf, 0, none⟩))),
    LRUQueue.push (rest.getLast hne) rest.dropLast, []⟩ : Mem K V) = _
  have hfreshlast : rest.getLast hne
      ∉ (rest.dropLast.map (fun k => (k, (⟨v, .inf, 0, none⟩ : Item V)))).map Prod.fst := by
    rw [keys_entries]
    exact hdlnd.2
  rw [mapSet_fresh hfreshlast]
  show (⟨rest.dropLast.map (fun k => (k, ⟨v, .inf, 0, none⟩))
      ++ [(rest.getLast hne, Cache.setItem ⟨.inf, .fin (n+1), .age⟩ ⟨none, 0, none⟩ v)],
    rest.dropLast ++ [rest.getLast hne], []⟩ : Mem K V) = _
  rw [show Cache.setItem (⟨.inf, .fin (n+1), .age⟩ : Config)
      (⟨none, 0, none⟩ : SetOpts) v = (⟨v, .inf, 0, none⟩ : Item V) from rfl]
  rw [show (rest.dropLast.map (fun k => (k, (⟨v, .inf, 0, none⟩ : Item V))))
      ++ [(rest.getLast hne, ⟨v, .inf, 0, none⟩)]
      = (rest.dropLast ++ [rest.getLast hne]).map
          (fun k => (k, (⟨v, .inf, 0, none⟩ : Item V))) by rw [List.map_append]; rfl]
  rw [hsplit]

end HamsterCache

namespace HamsterCache

/-- C3: on a cache with the `age` strategy and finite capacity `N`, after
inserting `N + 1` distinct keys `k1 :: rest` in order with no intervening
reads, `peek k1` is absent and `peek k` is present for every later key —
the first key yielded by the store's insertion-order iteration is the one
evicted; moreover (concrete conjuncts) an intervening `get` does not
change which key the `age` strategy evicts. -/
theorem age_policy_correctness {K V : Type} [DecidableEq K] (N : Nat)
    (hN : 1 ≤ N) (v : V) (k1 : K) (rest : List K)
    (hnd : (k1 :: rest).Nodup) (hlen : rest.length = N) :
    (Cache.peek k1
        (exec (⟨.inf, .fin N, .age⟩ : Config)
          ((k1 :: rest).map (fun k => Op.setO k v ⟨none, 0, none⟩))
          Cache.emptyMem) = none
      ∧ ∀ k ∈ rest,
          Cache.peek k
            (exec (⟨.inf, .fin N, .age⟩ : Config)
              ((k1 :: rest).map (fun k => Op.setO k v ⟨none, 0, none⟩))
              Cache.emptyMem) = some v)
    ∧ (Cache.hasKey 0 ageReadScenario = false
      ∧ Cache.hasKey 1 ageReadScenario = true
      ∧ Cache.hasKey 2 ageReadScenario = true) := by
  constructor
  · rw [age_insert_final hN v k1 rest hnd hlen]
    have hnd1 := List.nodup_cons.mp hnd
    constructor
    · show ((mapGet k1 (rest.map (fun k => (k, ⟨v, .inf, 0, none⟩)))).map
        Item.value) = none
      rw [mapGet_eq_none.mpr (by rw [keys_entries]; exact hnd1.1)]
      rfl
    · intro k hk
      show ((mapGet k (rest.map (fun k => (k, ⟨v, .inf, 0, none⟩)))).map
        Item.value) = some v
      have hgot : mapGet k (rest.map (fun k => (k, (⟨v, .inf, 0, none⟩ : Item V))))
          = some ⟨v, .inf, 0, none⟩ := by
        have hmem : (k, (⟨v, .inf, 0, none⟩ : Item V))
            ∈ rest.map (fun k => (k, ⟨v, .inf, 0, none⟩)) :=
          List.mem_map_of_mem _ hk
        have hndk : ((rest.map (fun k => (k, (⟨v, .inf, 0, none⟩ : Item V)))).map
            Prod.fst).Nodup := by
          rw [keys_entries]
          exact hnd1.2
        exact mapGet_self_of_nodup hndk _ hmem
      rw [hgot]
      rfl
  · exact ⟨by decide, by decide, by decide⟩

/-- Witness for C3 at a concrete input: capacity 1, keys 0 then 1. -/
theorem age_policy_correctness_witness :
    1 ≤ 1
    ∧ ((Cache.peek 0
          (exec (⟨.inf, .fin 1, .age⟩ : Config)
            (([0, 1] : List Nat).map
              (fun k => Op.setO k (5 : Nat) ⟨none, 0, none⟩))
            Cache.emptyMem) = none
        ∧ ∀ k ∈ ([1] : List Nat),
            Cache.peek k
              (exec (⟨.inf, .fin 1, .age⟩ : Config)
                (([0, 1] : List Nat).map
                  (fun k => Op.setO k (5 : Nat) ⟨none, 0, none⟩))
                Cache.emptyMem) = some 5)
      ∧ (Cache.hasKey 0 ageReadScenario = false
        ∧ Cache.hasKey 1 ageReadScenario = true
        ∧ Cache.hasKey 2 ageReadScenario = true)) :=
  ⟨by decide, age_policy_correctness 1 (by decide) 5 0 [1] (by decide) (by decide)⟩

end HamsterCache

namespace HamsterCache

variable {K V : Type} [DecidableEq K]

theorem liveIds_split {k : K} {l : List (K × Item V)} :
    (↑(l.filterMap (fun p => p.2.dispose)) : Multiset Nat)
      = ↑((mapDelete k l).filterMap (fun p => p.2.dispose))
        + ↑((l.filter (fun q => !decide (q.1 ≠ k))).filterMap
            (fun p => p.2.dispose)) := by
  rw [Multiset.coe_add, ← List.filterMap_append]
  refine Multiset.coe_eq_coe.mpr ?_
  exact (List.Perm.filterMap _
    (List.filter_append_perm (fun q => decide (q.1 ≠ k)) l)).symm

theorem usedM_remove_le {k : K} {it : Item V} {m : Mem K V}
    (h : mapGet k m.store = some it) (q : List K) :
    usedM (⟨mapDelete k m.store, q, m.log ++ it.dispose.toList⟩ : Mem K V)
      ≤ usedM m := by
  show (↑(m.log ++ it.dispose.toList) : Multiset Nat)
      + ↑((mapDelete k m.store).filterMap (fun p => p.2.dispose))
    ≤ (↑m.log : Multiset Nat) + ↑(m.store.filterMap (fun p => p.2.dispose))
  rw [show ((m.store.filterMap (fun p => p.2.dispose) : List Nat) : Multiset Nat)
      = ↑((mapDelete k m.store).filterMap (fun p => p.2.dispose))
        + ↑((m.store.filter (fun q => !decide (q.1 ≠ k))).filterMap
            (fun p => p.2.dispose)) from liveIds_split]
  rw [show (↑(m.log ++ it.dispose.toList) : Multiset Nat)
      = (↑m.log : Multiset Nat) + ↑(it.dispose.toList)
    from (Multiset.coe_add _ _).symm]
  have hsub : (↑(it.dispose.toList) : Multiset Nat)
      ≤ ↑((m.store.filter (fun q => !decide (q.1 ≠ k))).filterMap
          (fun p => p.2.dispose)) := by
    cases hd : it.dispose with
    | none => simp
    | some d =>
      have hmem : d ∈ (m.store.filter (fun q => !decide (q.1 ≠ k))).filterMap
          (fun p => p.2.dispose) := by
        apply List.mem_filterMap.mpr
        refine ⟨(k, it), ?_, hd⟩
        apply List.mem_filter.mpr
        exact ⟨mapGet_mem h, by simp⟩
      have : ({d} : Multiset Nat)
          ≤ ↑((m.store.filter (fun q => !decide (q.1 ≠ k))).filterMap
              (fun p => p.2.dispose)) := Multiset.singleton_le.mpr hmem
      simpa using this
  calc (↑m.log + ↑(it.dispose.toList) : Multiset Nat)
        + ↑((mapDelete k m.store).filterMap (fun p => p.2.dispose))
      = ((↑m.log : Multiset Nat)
          + ↑((mapDelete k m.store).filterMap (fun p => p.2.dispose)))
        + ↑(it.dispose.toList) := by
        rw [add_right_comm]
    _ ≤ ((↑m.log : Multiset Nat)
          + ↑((mapDelete k m.store).filterMap (fun p => p.2.dispose)))
        + ↑((m.store.filter (fun q => !decide (q.1 ≠ k))).filterMap
            (fun p => p.2.dispose)) := add_le_add_left hsub _
    _ = ↑m.log + (↑((mapDelete k m.store).filterMap (fun p => p.2.dispose))
          + ↑((m.store.filter (fun q => !decide (q.1 ≠ k))).filterMap
              (fun p => p.2.dispose)) : Multiset Nat) := by
        rw [add_assoc]

theorem usedM_deleteKey_le {k : K} {m : Mem K V} :
    usedM (Cache.deleteKey k m).2 ≤ usedM m := by
  cases hg : mapGet k m.store with
  | none => rw [deleteKey_none hg]
  | some it =>
    rw [deleteKey_some hg]
    exact usedM_remove_le hg _

theorem usedM_deleteLRU_le {m : Mem K V} :
    usedM (Cache.deleteLeastRecentlyUsedItem m).2 ≤ usedM m := by
  cases hq : m.queue with
  | nil => rw [deleteLRU_nilQueue hq]
  | cons k q' =>
    cases hg : mapGet k m.store with
    | none =>
      rw [deleteLRU_missing hq hg]
      exact le_of_eq rfl
    | some it =>
      rw [deleteLRU_found hq hg]
      exact usedM_remove_le hg _

theorem usedM_evictOne_le {cfg : Config} {m : Mem K V} :
    usedM (Cache.evictOne cfg m).2 ≤ usedM m := by
  cases hcb : cfg.evictBy with
  | age =>
    rw [evictOne_age hcb]
    cases hs : m.store with
    | nil => rw [deleteOldestItem_nil hs]
    | cons p rest =>
      have hcons : m.store = (p.1, p.2) :: rest := hs
      rw [deleteOldestItem_cons hcons]
      exact usedM_remove_le (by rw [hcons]; exact mapGet_cons_self) _
  | lru =>
    cases hq : m.queue with
    | nil => rw [evictOne_lru_thrown hcb (deleteLRU_nilQueue hq)]
    | cons k q' =>
      cases hg : mapGet k m.store with
      | none =>
        rw [evictOne_lru_thrown hcb (deleteLRU_missing hq hg)]
        exact le_of_eq rfl
      | some it =>
        rw [evictOne_lru_ok hcb (deleteLRU_found hq hg)]
        exact usedM_remove_le hg _

theorem usedM_evictLoop_le {cfg : Config} {fuel : Nat} {m : Mem K V} :
    usedM (Cache.evictLoop cfg fuel m).2 ≤ usedM m := by
  induction fuel generalizing m with
  | zero => exact le_refl _
  | succ n ih =>
    unfold Cache.evictLoop
    by_cases hg : ENum.le cfg.maximalItemCount (.fin m.store.length) = true
    · rw [if_pos hg]
      rcases he : Cache.evictOne cfg m with ⟨r, m1⟩
      have hle : usedM m1 ≤ usedM m := by
        have := @usedM_evictOne_le K V _ cfg m
        rwa [he] at this
      cases r with
      | thrown => exact hle
      | ok u => exact le_trans (ih (m := m1)) hle
    · rw [if_neg hg]

end HamsterCache

namespace HamsterCache

variable {K V : Type} [DecidableEq K]

theorem filterMap_mapSet_subperm {k : K} {it : Item V} :
    ∀ l : List (K × Item V),
      ((mapSet k it l).filterMap (fun p => p.2.dispose)).Subperm
        (l.filterMap (fun p => p.2.dispose) ++ it.dispose.toList) := by
  intro l
  induction l with
  | nil =>
    cases hd : it.dispose with
    | none =>
      simp only [mapSet, List.filterMap_cons, hd, Option.toList,
        List.filterMap_nil, List.nil_append]
      exact List.Subperm.refl _
    | some d =>
      simp only [mapSet, List.filterMap_cons, hd, Option.toList,
        List.filterMap_nil, List.nil_append]
      exact List.Subperm.refl _
  | cons p rest ih =>
    by_cases hp : p.1 = k
    · rw [show mapSet k it (p :: rest) = (p.1, it) :: rest from by
        rw [mapSet, if_pos hp]]
      simp only [List.filterMap_cons]
      cases hd : it.dispose with
      | none =>
        cases hd2 : p.2.dispose with
        | none =>
          simp only [Option.toList, List.append_nil]
          exact List.Subperm.refl _
        | some d2 =>
          simp only [Option.toList, List.append_nil]
          exact (List.sublist_cons_self d2 _).subperm
      | some d =>
        cases hd2 : p.2.dispose with
        | none =>
          simp only [Option.toList]
          exact (List.perm_append_singleton d _).symm.subperm
        | some d2 =>
          simp only [Option.toList]
          refine ((List.perm_append_singleton d _).symm.subperm).trans ?_
          exact ((List.sublist_cons_self d2 _).append_right [d]).subperm
    · rw [show mapSet k it (p :: rest) = p :: mapSet k it rest from by
        rw [mapSet, if_neg hp]]
      simp only [List.filterMap_cons]
      cases hd2 : p.2.dispose with
      | none => exact ih
      | some d2 =>
        rw [List.cons_append]
        exact (List.subperm_cons d2).mpr ih

theorem liveIds_mapSet_le {k : K} {it : Item V} (l : List (K × Item V)) :
    (↑((mapSet k it l).filterMap (fun p => p.2.dispose)) : Multiset Nat)
      ≤ ↑(l.filterMap (fun p => p.2.dispose)) + ↑(it.dispose.toList) := by
  rw [Multiset.coe_add]
  exact Multiset.coe_le.mpr (filterMap_mapSet_subperm l)

theorem usedM_set_le {cfg : Config} {k : K} {v : V} {opts : SetOpts}
    {m : Mem K V} :
    usedM (Cache.set cfg k v opts m).2 ≤ usedM m + ↑(opts.dispose.toList) := by
  by_cases httl : ENum.le (opts.ttl.getD cfg.defaultTTL) (.fin 0) = true
  · rw [set_ttl_nonpos httl]
    exact le_add_right (le_refl _)
  · rcases hl : Cache.evictLoop cfg m.store.length m with ⟨r, m1⟩
    have h1 : usedM m1 ≤ usedM m := by
      have := @usedM_evictLoop_le K V _ cfg m.store.length m
      rwa [hl] at this
    cases r with
    | thrown =>
      rw [set_loop_thrown (by simpa using httl) hl]
      exact le_add_right h1
    | ok u =>
      rw [set_loop_ok (by simpa using httl) hl]
      show (↑m1.log : Multiset Nat)
          + ↑((mapSet k (Cache.setItem cfg opts v) m1.store).filterMap
              (fun p => p.2.dispose))
        ≤ usedM m + ↑(opts.dispose.toList)
      have h2 := @liveIds_mapSet_le K V _ k (Cache.setItem cfg opts v) m1.store
      calc (↑m1.log : Multiset Nat)
            + ↑((mapSet k (Cache.setItem cfg opts v) m1.store).filterMap
                (fun p => p.2.dispose))
          ≤ (↑m1.log : Multiset Nat)
            + (↑(m1.store.filterMap (fun p => p.2.dispose))
              + ↑((Cache.setItem cfg opts v).dispose.toList)) :=
            add_le_add_left h2 _
        _ = usedM m1 + ↑(opts.dispose.toList) := by
            rw [← add_assoc]
            rfl
        _ ≤ usedM m + ↑(opts.dispose.toList) := add_le_add_right h1 _

theorem liveIds_mapSet_same {k : K} {it it' : Item V}
    (hd : it'.dispose = it.dispose) :
    ∀ {l : List (K × Item V)}, mapGet k l = some it →
      (mapSet k it' l).filterMap (fun p => p.2.dispose)
        = l.filterMap (fun p => p.2.dispose) := by
  intro l
  induction l with
  | nil => intro h; simp [mapGet] at h
  | cons p rest ih =>
    intro h
    by_cases hp : p.1 = k
    · have hit : p.2 = it := by
        rcases p with ⟨a, b⟩
        have ha : a = k := hp
        subst ha
        rw [mapGet_cons_self] at h
        exact Option.some_inj.mp h
      rw [show mapSet k it' (p :: rest) = (p.1, it') :: rest from by
        rw [mapSet, if_pos hp]]
      simp only [List.filterMap_cons]
      rw [show it'.dispose = p.2.dispose from
        hd.trans (congrArg Item.dispose hit).symm]
    · have h' : mapGet k rest = some it := by
        rcases p with ⟨a, b⟩
        rwa [mapGet_cons_ne hp] at h
      rw [show mapSet k it' (p :: rest) = p :: mapSet k it' rest from by
        rw [mapSet, if_neg hp]]
      simp only [List.filterMap_cons]
      rw [ih h']

theorem usedM_setTTL_le {k : K} {ttl : ENum} {t : Nat} {m : Mem K V} :
    usedM (Cache.setTTL k ttl t m).2 ≤ usedM m := by
  cases hg : mapGet k m.store with
  | none => rw [setTTL_missing hg]
  | some it =>
    rw [setTTL_found hg]
    show (↑m.log : Multiset Nat)
        + ↑((mapSet k { it with expireAfterTimestamp := ENum.add (.fin t) ttl }
            m.store).filterMap (fun p => p.2.dispose))
      ≤ (↑m.log : Multiset Nat) + ↑(m.store.filterMap (fun p => p.2.dispose))
    rw [@liveIds_mapSet_same K V _ k it
      ⟨it.value, ENum.add (.fin t) ttl, it.storageTimestamp, it.dispose⟩
      rfl m.store hg]

theorem usedM_getItem_le {k : K} {t : Nat} {m : Mem K V} :
    usedM (Cache.getItem k t m).2 ≤ usedM m := by
  cases hg : mapGet k m.store with
  | none =>
    rw [getItem_none hg]
    exact le_of_eq rfl
  | some it =>
    by_cases hexp : ENum.le it.expireAfterTimestamp (.fin t) = true
    · rw [getItem_expired hg hexp]
      exact usedM_deleteKey_le
    · rw [getItem_live hg (by simpa using hexp)]
      exact le_of_eq rfl

theorem usedM_sweepList_le {t : Nat} :
    ∀ (l : List (K × Item V)) (m : Mem K V),
      usedM (Cache.sweepList t l m).2 ≤ usedM m := by
  intro l
  induction l with
  | nil => intro m; exact le_refl _
  | cons p rest ih =>
    intro m
    unfold Cache.sweepList
    by_cases hexp : ENum.le p.2.expireAfterTimestamp (.fin t) = true
    · rw [if_pos hexp]
      rcases hd : Cache.deleteKey p.1 m with ⟨r, m1⟩
      have h1 : usedM m1 ≤ usedM m := by
        have := @usedM_deleteKey_le K V _ p.1 m
        rwa [hd] at this
      cases r with
      | thrown => exact h1
      | ok b => exact le_trans (ih m1) h1
    · rw [if_neg hexp]
      exact ih m

theorem usedM_clear_le {m : Mem K V} : usedM (Cache.clear m) ≤ usedM m := by
  show (↑m.log : Multiset Nat)
      + ↑(([] : List (K × Item V)).filterMap (fun p => p.2.dispose))
    ≤ (↑m.log : Multiset Nat) + ↑(m.store.filterMap (fun p => p.2.dispose))
  exact add_le_add_left (by simp) _

theorem usedM_step_le {cfg : Config} (op : Op K V) (m : Mem K V) :
    usedM (step cfg op m) ≤ usedM m + ↑(opIds op) := by
  cases op with
  | setO k v opts => exact usedM_set_le
  | getO k t => exact le_add_right usedM_getItem_le
  | getItemO k t => exact le_add_right usedM_getItem_le
  | peekO k => exact le_add_right (le_refl _)
  | peekItemO k => exact le_add_right (le_refl _)
  | hasO k => exact le_add_right (le_refl _)
  | deleteO k => exact le_add_right usedM_deleteKey_le
  | clearO => exact le_add_right usedM_clear_le
  | evictExpiredO t => exact le_add_right (usedM_sweepList_le m.store m)
  | setTTLO k ttl t => exact le_add_right usedM_setTTL_le

theorem exec_usedM_nodup {cfg : Config} :
    ∀ (ops : List (Op K V)) (m : Mem K V),
      (usedM m + (↑(allIds ops) : Multiset Nat)).Nodup →
      (usedM (exec cfg ops m)).Nodup := by
  intro ops
  induction ops with
  | nil =>
    intro m h
    show (usedM m).Nodup
    exact Multiset.nodup_of_le (le_add_right (le_refl _)) h
  | cons op rest ih =>
    intro m h
    show (usedM (exec cfg rest (step cfg op m))).Nodup
    apply ih
    refine Multiset.nodup_of_le ?_ h
    calc usedM (step cfg op m) + (↑(allIds rest) : Multiset Nat)
        ≤ (usedM m + (↑(opIds op) : Multiset Nat))
            + (↑(allIds rest) : Multiset Nat) :=
          add_le_add_right (@usedM_step_le K V _ cfg op m) _
      _ = usedM m + (↑(allIds (op :: rest)) : Multiset Nat) := by
          rw [add_assoc, Multiset.coe_add]
          rfl

end HamsterCache

namespace HamsterCache

/-- C5: with pairwise-distinct dispose ids supplied to `set`, after any
sequence of public operations from a fresh cache each dispose callback has
fired at most once (the fired-id log has no duplicates; ids only ever move
from live items into the log, i.e. fire only upon removal from the store);
moreover `peek` has no side effect at all, `get` of a live (non-expired)
item returns its value and fires nothing, `set` without capacity pressure —
in particular an overwrite of a live key — fires nothing (the replaced
item's callback is skipped), and `clear` fires nothing. -/
theorem dispose_at_most_once {K V : Type} [DecidableEq K] (cfg : Config)
    (ops : List (Op K V)) (hids : (allIds ops).Nodup)
    (m : Mem K V) (k : K) (v : V) (asOf : Nat) (it : Item V) (opts : SetOpts)
    (hlive : mapGet k m.store = some it)
    (hexp : ENum.le it.expireAfterTimestamp (.fin asOf) = false)
    (hcap : ENum.le cfg.maximalItemCount (.fin m.store.length) = false) :
    ((exec cfg ops Cache.emptyMem).log).Nodup
    ∧ step cfg (Op.peekO k) m = m
    ∧ (Cache.get k asOf m).1 = some it.value
    ∧ ((Cache.get k asOf m).2).log = m.log
    ∧ ((Cache.set cfg k v opts m).2).log = m.log
    ∧ (Cache.clear m).log = m.log := by
  refine ⟨?_, rfl, ?_, ?_, ?_, rfl⟩
  · have h0 : (usedM (Cache.emptyMem : Mem K V)
        + (↑(allIds ops) : Multiset Nat)).Nodup := by
      rw [show usedM (Cache.emptyMem : Mem K V) = 0 from rfl, zero_add]
      exact Multiset.coe_nodup.mpr hids
    have h1 := @exec_usedM_nodup K V _ cfg ops Cache.emptyMem h0
    have h2 : ((↑((exec cfg ops (Cache.emptyMem : Mem K V)).log)) : Multiset Nat)
        ≤ usedM (exec cfg ops Cache.emptyMem) := le_add_right (le_refl _)
    exact Multiset.coe_nodup.mp (Multiset.nodup_of_le h2 h1)
  · show ((Cache.getItem k asOf m).1.map Item.value) = some it.value
    rw [getItem_live hlive hexp]
    rfl
  · show ((Cache.getItem k asOf m).2).log = m.log
    rw [getItem_live hlive hexp]
  · by_cases httl : ENum.le (opts.ttl.getD cfg.defaultTTL) (.fin 0) = true
    · rw [set_ttl_nonpos httl]
    · rw [set_loop_ok (by simpa using httl) (evictLoop_guard_false hcap)]

/-- Witness for C5 at a concrete input: three operations with distinct
dispose ids 100 and 101 (an insert, a delete and a re-insert of the same
key), plus the live TTL-scenario item probed at 14999. -/
theorem dispose_at_most_once_witness :
    ((exec cfgLru2 [Op.setO 0 1 (optsD 0 100), Op.deleteO 0,
        Op.setO 0 2 (optsD 1 101)] (Cache.emptyMem : Mem Nat Nat)).log).Nodup
    ∧ step cfgLru2 (Op.peekO 0) ttlScenario = ttlScenario
    ∧ (Cache.get 0 14999 ttlScenario).1
        = some (⟨99, .fin 15000, 10000, some 7⟩ : Item Nat).value
    ∧ ((Cache.get 0 14999 ttlScenario).2).log = ttlScenario.log
    ∧ ((Cache.set cfgLru2 0 5 (optsD 3 55) ttlScenario).2).log = ttlScenario.log
    ∧ (Cache.clear ttlScenario).log = ttlScenario.log :=
  dispose_at_most_once cfgLru2
    [Op.setO 0 1 (optsD 0 100), Op.deleteO 0, Op.setO 0 2 (optsD 1 101)]
    (by decide) ttlScenario 0 5 14999 ⟨99, .fin 15000, 10000, some 7⟩
    (optsD 3 55) (by decide) (by decide) (by decide)

end HamsterCache

namespace HamsterCache

variable {K V : Type} [DecidableEq K]

theorem mapDelete_length_nodup {k : K} {it : Item V} :
    ∀ {l : List (K × Item V)}, (l.map Prod.fst).Nodup →
      mapGet k l = some it → (mapDelete k l).length + 1 = l.length := by
  intro l
  induction l with
  | nil => intro _ h; simp [mapGet] at h
  | cons q rest ih =>
    intro hnd h
    have hnd' := List.nodup_cons.mp
      (show (q.1 :: rest.map Prod.fst).Nodup from hnd)
    by_cases hq : q.1 = k
    · have hrest : mapDelete k rest = rest :=
        mapDelete_not_mem (hq ▸ hnd'.1)
      rw [show mapDelete k (q :: rest) = mapDelete k rest from by
        simp [mapDelete, List.filter_cons, hq], hrest]
      simp
    · have h' : mapGet k rest = some it := by
        rcases q with ⟨a, b⟩
        rwa [mapGet_cons_ne hq] at h
      rw [show mapDelete k (q :: rest) = q :: mapDelete k rest from by
        simp [mapDelete, List.filter_cons, hq]]
      simp only [List.length_cons]
      rw [← ih hnd'.2 h']

/-- C10: calling `set` with a valid TTL on a key already present while
`size()` equals the finite `maximalItemCount` `N` still runs the
capacity-enforcement loop: exactly one item is evicted per the configured
strategy (the insertion-order head under `age`, the recency head under
`lru`) before the overwrite — under `lru` possibly the very key being
overwritten, in which case the final size is back to `N`; otherwise the
overwrite is not size-increasing and the cache ends strictly below
capacity at `N - 1`. The concrete conjuncts exhibit both outcomes at
capacity 2. -/
theorem overwrite_at_capacity_evicts {K V : Type} [DecidableEq K]
    (cfg : Config) (N : Nat) (k : K) (v : V) (opts : SetOpts) (m : Mem K V)
    (it0 : Item V)
    (hwf : WF m) (hmax : cfg.maximalItemCount = .fin N)
    (hlen : m.store.length = N) (hN : 1 ≤ N)
    (hk : mapGet k m.store = some it0)
    (httl : ENum.le (opts.ttl.getD cfg.defaultTTL) (.fin 0) = false) :
    (∃ ek : K, ∃ eit : Item V,
      mapGet ek m.store = some eit
      ∧ (cfg.evictBy = .age → m.store.head? = some (ek, eit))
      ∧ (cfg.evictBy = .lru → m.queue.head? = some ek)
      ∧ Cache.set cfg k v opts m
          = (.ok true,
             ⟨mapSet k (Cache.setItem cfg opts v) (mapDelete ek m.store),
              LRUQueue.push k (LRUQueue.delete ek m.queue),
              m.log ++ eit.dispose.toList⟩)
      ∧ (ek ≠ k → Cache.size (Cache.set cfg k v opts m).2 = N - 1)
      ∧ (ek = k → Cache.size (Cache.set cfg k v opts m).2 = N))
    ∧ storeKeys overwriteSelfScenario = [1, 0]
    ∧ overwriteSelfScenario.log = [100]
    ∧ Cache.size overwriteShrinkScenario = 1
    ∧ overwriteShrinkScenario.log = [101] := by
  refine ⟨?_, by decide, by decide, by decide, by decide⟩
  obtain ⟨n, rfl⟩ : ∃ n, N = n + 1 := ⟨N - 1, by omega⟩
  have hne : m.store ≠ [] := by
    intro h0
    rw [h0] at hlen
    simp at hlen
  have hguard : ENum.le cfg.maximalItemCount (.fin m.store.length) = true := by
    rw [hmax, hlen]
    exact ENum.le_fin_iff.mpr (le_refl _)
  have hkkeys : k ∈ m.store.map Prod.fst :=
    mapGet_isSome_iff.mp (by rw [hk]; rfl)
  -- pick the evicted key and item per strategy, and show the common facts
  have hmain : ∃ ek : K, ∃ eit : Item V,
      mapGet ek m.store = some eit
      ∧ (cfg.evictBy = .age → m.store.head? = some (ek, eit))
      ∧ (cfg.evictBy = .lru → m.queue.head? = some ek)
      ∧ Cache.evictOne cfg m
          = (.ok (), ⟨mapDelete ek m.store, LRUQueue.delete ek m.queue,
              m.log ++ eit.dispose.toList⟩) := by
    cases hcb : cfg.evictBy with
    | age =>
      cases hs : m.store with
      | nil => exact absurd hs hne
      | cons p rest =>
        refine ⟨p.1, p.2, ?_, ?_, ?_, ?_⟩
        · rcases p with ⟨a, b⟩
          exact mapGet_cons_self
        · intro _
          rfl
        · intro hlru
          exact nomatch hlru
        · rw [evictOne_age hcb,
            deleteOldestItem_cons (show m.store = (p.1, p.2) :: rest from hs), hs]
    | lru =>
      cases hq : m.queue with
      | nil =>
        exfalso
        cases hs : m.store with
        | nil => exact hne hs
        | cons p rest =>
          have hp : p.1 ∈ m.queue := (hwf.2 p.1).mp
            (show p.1 ∈ m.store.map Prod.fst from by
              rw [hs]
              exact List.mem_map_of_mem Prod.fst (List.mem_cons_self p rest))
          rw [hq] at hp
          simp at hp
      | cons ek q' =>
        have hekkeys : ek ∈ storeKeys m := (hwf.2 ek).mpr
          (show ek ∈ m.queue from by rw [hq]; exact List.mem_cons_self ek q')
        cases hg : mapGet ek m.store with
        | none => exact absurd (mapGet_isSome_iff.mpr hekkeys) (by rw [hg]; simp)
        | some eit =>
          refine ⟨ek, eit, hg, ?_, ?_, ?_⟩
          · intro hage
            exact nomatch hage
          · intro _
            rfl
          · rw [evictOne_lru_ok hcb (deleteLRU_found hq hg), qdelete_cons_self]
  rcases hmain with ⟨ek, eit, hgek, hage, hlru, hone⟩
  have hm1len : (mapDelete ek m.store).length = n := by
    have := mapDelete_length_nodup hwf.1 hgek
    omega
  have hloop : Cache.evictLoop cfg m.store.length m
      = (.ok (), ⟨mapDelete ek m.store, LRUQueue.delete ek m.queue,
          m.log ++ eit.dispose.toList⟩) := by
    rw [hlen]
    refine evictLoop_once_ok hguard hone ?_
    show ENum.le cfg.maximalItemCount (.fin (mapDelete ek m.store).length) = false
    rw [hmax, hm1len]
    rw [ENum.le_fin_false_iff]
    omega
  have hset : Cache.set cfg k v opts m
      = (.ok true,
         ⟨mapSet k (Cache.setItem cfg opts v) (mapDelete ek m.store),
          LRUQueue.push k (LRUQueue.delete ek m.queue),
          m.log ++ eit.dispose.toList⟩) :=
    set_loop_ok httl hloop
  refine ⟨ek, eit, hgek, hage, hlru, hset, ?_, ?_⟩
  · intro hnek
    show ((Cache.set cfg k v opts m).2).store.length = n + 1 - 1
    rw [hset]
    show (mapSet k (Cache.setItem cfg opts v) (mapDelete ek m.store)).length
      = n + 1 - 1
    rw [length_mapSet,
      if_pos (mem_keys_mapDelete.mpr ⟨hkkeys, fun he => hnek he.symm⟩), hm1len]
    omega
  · intro heqk
    show ((Cache.set cfg k v opts m).2).store.length = n + 1
    rw [hset]
    show (mapSet k (Cache.setItem cfg opts v) (mapDelete ek m.store)).length
      = n + 1
    rw [length_mapSet,
      if_neg (fun hmem => (mem_keys_mapDelete.mp hmem).2 heqk.symm), hm1len]

end HamsterCache

namespace HamsterCache

/-- Witness for C10 at a concrete input: capacity-2 `lru` cache holding
keys 0 and 1, key 0 least recently used, overwritten by `set` of key 0 —
the loop evicts the very key being overwritten. -/
theorem overwrite_at_capacity_evicts_witness :
    (∃ ek : Nat, ∃ eit : Item Nat,
      mapGet ek fullPairMem.store = some eit
      ∧ (cfgLru2.evictBy = .age → fullPairMem.store.head? = some (ek, eit))
      ∧ (cfgLru2.evictBy = .lru → fullPairMem.queue.head? = some ek)
      ∧ Cache.set cfgLru2 0 3 (optsD 2 102) fullPairMem
          = (.ok true,
             ⟨mapSet 0 (Cache.setItem cfgLru2 (optsD 2 102) 3)
                (mapDelete ek fullPairMem.store),
              LRUQueue.push 0 (LRUQueue.delete ek fullPairMem.queue),
              fullPairMem.log ++ eit.dispose.toList⟩)
      ∧ (ek ≠ 0 →
          Cache.size (Cache.set cfgLru2 0 3 (optsD 2 102) fullPairMem).2 = 2 - 1)
      ∧ (ek = 0 →
          Cache.size (Cache.set cfgLru2 0 3 (optsD 2 102) fullPairMem).2 = 2))
    ∧ storeKeys overwriteSelfScenario = [1, 0]
    ∧ overwriteSelfScenario.log = [100]
    ∧ Cache.size overwriteShrinkScenario = 1
    ∧ overwriteShrinkScenario.log = [101] :=
  overwrite_at_capacity_evicts cfgLru2 2 0 3 (optsD 2 102) fullPairMem
    ⟨1, .inf, 0, some 100⟩ ⟨by decide, fun a => Iff.rfl⟩ rfl (by decide)
    (by decide) (by decide) (by decide)

end HamsterCache

namespace HamsterCache

/-- Witness for C6 at a concrete input: a two-item store in which exactly
one item is expired at timestamp 15000; the sweep removes it (firing its
dispose id 20) and leaves the other present. -/
theorem sweep_correctness_witness :
    Cache.hasKey 2 (Cache.evictExpiredItems 15000
      ((⟨[(2, ⟨0, ENum.fin 15000, 10000, some 20⟩),
          (4, ⟨0, ENum.fin 16000, 11000, some 40⟩)], [2, 4], []⟩ : Mem Nat Nat))).2
        = false
    ∧ Cache.peekItem 4 (Cache.evictExpiredItems 15000
      ((⟨[(2, ⟨0, ENum.fin 15000, 10000, some 20⟩),
          (4, ⟨0, ENum.fin 16000, 11000, some 40⟩)], [2, 4], []⟩ : Mem Nat Nat))).2
        = some ⟨0, ENum.fin 16000, 11000, some 40⟩ :=
  ⟨(sweep_correctness 15000
      (⟨[(2, ⟨0, ENum.fin 15000, 10000, some 20⟩),
         (4, ⟨0, ENum.fin 16000, 11000, some 40⟩)], [2, 4], []⟩ : Mem Nat Nat)
      (by decide)).2.1
      (2, ⟨0, ENum.fin 15000, 10000, some 20⟩) (by decide) (by decide),
   (sweep_correctness 15000
      (⟨[(2, ⟨0, ENum.fin 15000, 10000, some 20⟩),
         (4, ⟨0, ENum.fin 16000, 11000, some 40⟩)], [2, 4], []⟩ : Mem Nat Nat)
      (by decide)).2.2
      (4, ⟨0, ENum.fin 16000, 11000, some 40⟩) (by decide) (by decide)⟩

end HamsterCache
